import Mathlib

/-!
# Verification of the ArchExtractor core (`src/archextractor/archextractor.py`)

A shallow embedding of the recursive archive-extraction core:

* the filesystem is a finite tree of named entries (`FSTree`), paths are lists
  of name components;
* the archive backend (`patoolib`) is an opaque collaborator, modelled as a
  structure of pure functions (`Backend`): `is_archive` is a pure predicate on
  the path, `test_archive` is a non-mutating probe that may fail with a
  `PatoolError`, `extract_archive` returns the new filesystem tree together
  with an optional `PatoolError` (a failing extraction may still have modified
  the tree);
* OS-level faults are modelled by a set of `locked` paths: removing a locked
  path raises `OSError`, which is how permission errors enter the model;
* every externally visible action (backend calls, artifact-predicate
  evaluations, removals, log lines) is recorded as an `Event`, so that claims
  about logging and about which operations were attempted are statable;
* Python exceptions are modelled with `Except`: a method's result is an
  `Except Exc _` value and an uncaught exception is an `.error`;
* the `os.walk` based artifact-removal loop inside the `finally` block of
  `extract` is modelled by `walkRec`, a fuel-indexed recursion that consumes
  one unit of fuel per directory level; `extract` instantiates the fuel with
  `height root + 1`, which is always sufficient (the walk only deletes
  entries, so the tree never gets deeper while walking).
-/

/-- A filesystem path, as its list of name components (absolute, rooted). -/
abbrev FPath := List String

/-- A filesystem tree: an entry is a regular file or a directory with an
ordered list of named children. -/
inductive FSTree where
  | file : FSTree
  | dir : List (String × FSTree) → FSTree
deriving Repr, Inhabited

/-- First child of the given name (directory listings have unique names on a
real filesystem; lookup takes the first match). -/
def lookupChild (n : String) : List (String × FSTree) → Option FSTree
  | [] => none
  | (m, t) :: cs => if m = n then some t else lookupChild n cs

/-- Resolve a path inside a tree (`none` = no such entry, the model of
`os.path.exists` returning false). -/
def lookupAt : FSTree → FPath → Option FSTree
  | t, [] => some t
  | .file, _ :: _ => none
  | .dir cs, n :: p =>
      match lookupChild n cs with
      | none => none
      | some c => lookupAt c p

/-- `os.path.exists`. -/
def existsAt (t : FSTree) (p : FPath) : Bool :=
  (lookupAt t p).isSome

/-- Is the entry a directory (`os.path.isdir` on a resolved entry). -/
def isDirT : FSTree → Bool
  | .file => false
  | .dir _ => true

/-- `os.path.isdir` on a path. -/
def isDirAt (t : FSTree) (p : FPath) : Bool :=
  match lookupAt t p with
  | some u => isDirT u
  | none => false

/-- Drop every child of the given name from a listing. -/
def removeChild (n : String) : List (String × FSTree) → List (String × FSTree)
  | [] => []
  | (m, t) :: cs => if m = n then removeChild n cs else (m, t) :: removeChild n cs

mutual
/-- Delete the entry at a (non-empty) path: the model of both `os.remove` and
`shutil.rmtree` acting on the tree (the caller checks the entry kind). -/
def removeAt : FSTree → FPath → FSTree
  | t, [] => t
  | .file, _ :: _ => .file
  | .dir cs, n :: p => .dir (removeAtC cs n p)

/-- Helper of `removeAt` on child listings. -/
def removeAtC : List (String × FSTree) → String → FPath → List (String × FSTree)
  | [], _, _ => []
  | (m, t) :: cs, n, p =>
      if m = n then
        match p with
        | [] => removeAtC cs n p
        | _ :: _ => (m, removeAt t p) :: removeAtC cs n p
      else (m, t) :: removeAtC cs n p
end

mutual
/-- Height of a tree: a path that resolves in `t` has length at most
`height t`. Used to pick a sufficient fuel for the `os.walk` model. -/
def height : FSTree → Nat
  | .file => 0
  | .dir cs => 1 + heightC cs

/-- Height of a child listing. -/
def heightC : List (String × FSTree) → Nat
  | [] => 0
  | (_, t) :: cs => max (height t) (heightC cs)
end

/-- `os.path.basename` of a path in component form. -/
def basename (p : FPath) : String :=
  (p.getLast?).getD ""

/-- Index of the last dot in a list of characters. -/
def lastDotIdx : List Char → Option Nat
  | [] => none
  | c :: cs =>
      match lastDotIdx cs with
      | some i => some (i + 1)
      | none => if c = '.' then some 0 else none

/-- The root part of `os.path.splitext` on a bare file name: split at the last
dot, unless every character before it is a dot (so `.bashrc` keeps its name,
`a.tar.gz` becomes `a.tar`). -/
def splitextRoot (s : String) : String :=
  match lastDotIdx s.data with
  | none => s
  | some i =>
      if (s.data.take i).all (fun c => c = '.') then s
      else ⟨s.data.take i⟩

/-- The options forwarded verbatim to every backend call
(`verbosity`, `program`, `interactive`, `password`). -/
structure Opts where
  verbosity : Int
  program : Option String
  interactive : Bool
  password : Option String
deriving Repr, DecidableEq

/-- A `patoolib.util.PatoolError` payload. -/
abbrev PatErr := String

/-- The archive backend (`patoolib`), an external collaborator: a pure
extension-based classifier, a non-mutating decode probe, and the mutating
extraction, which returns the new tree and an optional failure (a failing
extraction may have partially modified the tree). -/
structure Backend where
  is_archive : FPath → Bool
  test_archive : FPath → Opts → FSTree → Option PatErr
  extract_archive : FPath → FPath → Opts → FSTree → FSTree × Option PatErr

/-- Modelled from the spec: the module `archextractor/utils.py` (imported as
`from .utils import is_auto_generated`) is not part of the sources; the spec
describes `is_auto_generated` only as a pure boolean classifier over a
filesystem path recognising byproducts of the extraction tool or host OS.  We
model it as an arbitrary pure predicate.  `locked` is the model of OS-level
faults: deleting a locked path raises `OSError`. -/
structure Ctx where
  is_auto_generated : FPath → Bool
  locked : FPath → Bool

/-- Observable actions of the core: log lines, backend invocations,
artifact-predicate evaluations and filesystem removals. -/
inductive Event where
  /-- `logger.error` for a file failing the coarse extension check. -/
  | logNotArchive (src : FPath)
  /-- invocation of the backend decode probe `patoolib.test_archive`. -/
  | probeCall (src : FPath)
  /-- `logger.error` for a probe failure. -/
  | logTestFailed (src : FPath)
  /-- invocation of the backend `patoolib.extract_archive`. -/
  | extractCall (src dst : FPath)
  /-- `logger.error` for an extraction failure. -/
  | logExtractFailed (src : FPath)
  /-- one evaluation of `is_auto_generated` during the cleanup walk. -/
  | artCheck (p : FPath)
  /-- `shutil.rmtree` of an auto-generated directory (with its log line). -/
  | removedTree (p : FPath)
  /-- `os.remove` of an auto-generated file (with its log line). -/
  | removedFile (p : FPath)
  /-- `os.remove` of the source archive under `cleanup=True` (with its log line). -/
  | removedCleanup (src : FPath)
deriving Repr, DecidableEq

/-- The mutable world: the filesystem tree and the event log. -/
structure World where
  root : FSTree
  events : List Event
deriving Repr

/-- A Python exception escaping a call: a `PatoolError` or an `OSError`. -/
inductive Exc where
  | patool (msg : PatErr)
  | oserr
deriving Repr, DecidableEq

/-- State threaded through the cleanup walk. -/
abbrev WSt := FSTree × List Event

/-- One `for`-loop of the cleanup walk body over a snapshot of names
(`for dir in dirs` when `isDirPass`, else `for file in files`): evaluate
`is_auto_generated`, re-check existence, then `shutil.rmtree`/`os.remove`.
An `.error` is the `OSError` raised on deleting a locked path; it carries the
partial state. -/
def delPass (ctx : Ctx) (top : FPath) (isDirPass : Bool) :
    List String → WSt → Except WSt WSt
  | [], st => .ok st
  | n :: ns, (t, evs) =>
      let p := top ++ [n]
      let evs := evs ++ [Event.artCheck p]
      if ctx.is_auto_generated p then
        if existsAt t p then
          if ctx.locked p then .error (t, evs)
          else
            delPass ctx top isDirPass ns
              (removeAt t p,
               evs ++ [if isDirPass then Event.removedTree p else Event.removedFile p])
        else delPass ctx top isDirPass ns (t, evs)
      else delPass ctx top isDirPass ns (t, evs)

/-- Descend into each directory of the snapshot in order, running the given
walker (`os.walk` yields the subtree of each listed directory after the body
ran on the parent). -/
def runDirs (walker : FPath → WSt → Except WSt WSt) (top : FPath) :
    List String → WSt → Except WSt WSt
  | [], st => .ok st
  | n :: ns, st =>
      match walker (top ++ [n]) st with
      | .error e => .error e
      | .ok st => runDirs walker top ns st

/-- Names of the subdirectories in a listing, in listing order. -/
def dirNames (cs : List (String × FSTree)) : List String :=
  (cs.filter fun c => isDirT c.2).map (fun c => c.1)

/-- Names of the regular files in a listing, in listing order. -/
def fileNames (cs : List (String × FSTree)) : List String :=
  (cs.filter fun c => !isDirT c.2).map (fun c => c.1)

/-- The `for root, dirs, files in os.walk(dst)` loop of the finalizer in
`extract`, with its body: list the directory (a vanished or non-directory
path yields nothing, as `os.walk` swallows the `scandir` error), remove the
auto-generated directories then files among its children, then descend into
the snapshot of subdirectory names.  Fuel is consumed once per directory
level; `extract` supplies `height root + 1`, which is always sufficient. -/
def walkRec (ctx : Ctx) : Nat → FPath → WSt → Except WSt WSt
  | 0, _, st => .ok st
  | fuel + 1, top, (t, evs) =>
      match lookupAt t top with
      | some (.dir cs) =>
          match delPass ctx top true (dirNames cs) (t, evs) with
          | .error e => .error e
          | .ok st =>
              match delPass ctx top false (fileNames cs) st with
              | .error e => .error e
              | .ok st => runDirs (walkRec ctx fuel) top (dirNames cs) st
      | _ => .ok (t, evs)

/-- The `finally` block of `ArchExtractor.extract` (lines 202–226): walk the
destination subtree removing auto-generated entries, then — if `cleanup` is
set and the source still exists — delete the source archive.  Any `OSError`
(modelled: deleting a locked path) aborts the rest of the block and is
silently swallowed (`except OSError: pass`). -/
def finalize (ctx : Ctx) (src dst : FPath) (cleanup : Bool) (w : World) : World :=
  match walkRec ctx (height w.root + 1) dst (w.root, []) with
  | .error (t, evs) => { root := t, events := w.events ++ evs }
  | .ok (t, evs) =>
      if cleanup && existsAt t src then
        if ctx.locked src || isDirAt t src then
          { root := t, events := w.events ++ evs }
        else
          { root := removeAt t src,
            events := w.events ++ evs ++ [Event.removedCleanup src] }
      else { root := t, events := w.events ++ evs }

/-- The guarded backend extraction of `extract` (lines 186–200): invoke
`patoolib.extract_archive`; a `PatoolError` is caught and logged, and the
(possibly partially modified) tree is kept. -/
def attemptWorld (B : Backend) (src dst : FPath) (opts : Opts) (w : World) : World :=
  match B.extract_archive src dst opts w.root with
  | (t, none) => { root := t, events := w.events ++ [Event.extractCall src dst] }
  | (t, some _) =>
      { root := t,
        events := w.events ++ [Event.extractCall src dst, Event.logExtractFailed src] }

/-- The `ArchExtractor` instance: the constructor stores the source and
destination paths. -/
structure ArchExtractor where
  src : FPath
  dst : FPath
deriving Repr, DecidableEq

/-- `ArchExtractor.test_archive` (lines 31–80): coarse extension check, then
the backend decode probe; a probe `PatoolError` is caught, logged and turned
into `False`.  The result carries the (unmodified) instance and world; an
`.error` would be an uncaught exception escaping the method. -/
def ArchExtractor.test_archive (B : Backend) (self : ArchExtractor)
    (osrc : Option FPath) (opts : Opts) (w : World) :
    Except Exc (Bool × ArchExtractor × World) :=
  let src := osrc.getD self.src
  if !B.is_archive src then
    .ok (false, self, { w with events := w.events ++ [Event.logNotArchive src] })
  else
    match B.test_archive src opts w.root with
    | some _ =>
        .ok (false, self,
          { w with events := w.events ++ [Event.probeCall src, Event.logTestFailed src] })
    | none =>
        .ok (true, self, { w with events := w.events ++ [Event.probeCall src] })

/-- `ArchExtractor.extract` (lines 144–226): resolve defaults, validate via
`test_archive` (a `False` aborts the call), then run the guarded backend
extraction and, unconditionally, the `finally` block. -/
def ArchExtractor.extract (B : Backend) (ctx : Ctx) (self : ArchExtractor)
    (osrc odst : Option FPath) (opts : Opts) (cleanup : Bool) (w : World) :
    Except Exc (ArchExtractor × World) :=
  let src := osrc.getD self.src
  let dst := odst.getD self.dst
  match self.test_archive B (some src) opts w with
  | .error e => .error e
  | .ok (false, self, w) => .ok (self, w)
  | .ok (true, self, w) =>
      .ok (self, finalize ctx src dst cleanup (attemptWorld B src dst opts w))

/-- The `for file in os.listdir(extract_dir)` loop of `extractall`
(lines 132–142): for each child name in the snapshot, if the backend's coarse
check classifies it as an archive, recurse via the given step; other children
are skipped. -/
def runSubs (step : FPath → ArchExtractor × World → Except Exc (ArchExtractor × World))
    (isArch : FPath → Bool) (ed : FPath) :
    List String → ArchExtractor × World → Except Exc (ArchExtractor × World)
  | [], st => .ok st
  | n :: ns, st =>
      if isArch (ed ++ [n]) then
        match step (ed ++ [n]) st with
        | .error e => .error e
        | .ok st => runSubs step isArch ed ns st
      else runSubs step isArch ed ns st

/-- `ArchExtractor.extractall` (lines 82–142): single-level extraction of the
source, then — if the expected output directory `dst / stem(basename src)`
exists and is a directory — recursion into each child the backend classifies
as an archive, with the same options.  The recursion of the Python source is
unbounded; the embedding indexes it by fuel (at fuel `0` the call returns
without acting), and the termination claim is stated as fuel-indifference. -/
def ArchExtractor.extractall (B : Backend) (ctx : Ctx) :
    Nat → ArchExtractor → Option FPath → Option FPath → Opts → Bool → World →
    Except Exc (ArchExtractor × World)
  | 0, self, _, _, _, _, w => .ok (self, w)
  | fuel + 1, self, osrc, odst, opts, cleanup, w =>
      let src := osrc.getD self.src
      let dst := odst.getD self.dst
      match self.extract B ctx (some src) (some dst) opts cleanup w with
      | .error e => .error e
      | .ok (self, w) =>
          let ed := dst ++ [splitextRoot (basename src)]
          match lookupAt w.root ed with
          | some (.dir cs) =>
              runSubs
                (fun p st =>
                  ArchExtractor.extractall B ctx fuel st.1 (some p) (some ed) opts cleanup st.2)
                B.is_archive ed (cs.map fun c => c.1) (self, w)
          | _ => .ok (self, w)

/-- The state carried by a walk outcome, whether it finished or was aborted
by an `OSError`. -/
def wstOf : Except WSt WSt → WSt
  | .ok st => st
  | .error st => st

/-- The events the cleanup walk itself can emit. -/
def isWalkEvent : Event → Bool
  | .artCheck _ => true
  | .removedTree _ => true
  | .removedFile _ => true
  | _ => false

/-! ## Path and tree lemmas -/

/-- Boolean prefix relation on paths: `pathLe r p` iff `r` is an initial
segment of `p` (the filesystem meaning: `p` is `r` or lies inside `r`). -/
def pathLe : FPath → FPath → Bool
  | [], _ => true
  | _ :: _, [] => false
  | a :: r, b :: p => a == b && pathLe r p

/-- The nested-descent loop of `extractall` with the archive filter applied to
the child listing up front (equivalent to the source's interleaved test, since
the backend's coarse check is a pure function of the path). -/
def runSubsF (step : FPath → ArchExtractor × World → Except Exc (ArchExtractor × World))
    (ed : FPath) :
    List String → ArchExtractor × World → Except Exc (ArchExtractor × World)
  | [], st => .ok st
  | n :: ns, st =>
      match step (ed ++ [n]) st with
      | .error e => .error e
      | .ok st => runSubsF step ed ns st

/-! ## Concrete sample objects used by the example instantiations -/

/-- Default option values (`verbosity=0`, no program, non-interactive, no
password), as in the Python signatures. -/
def opts0 : Opts := { verbosity := 0, program := none, interactive := false, password := none }

/-- A context where nothing is classified auto-generated and nothing is locked. -/
def ctxPlain : Ctx := { is_auto_generated := fun _ => false, locked := fun _ => false }

/-- A context classifying the path `d/inner.zip` as an auto-generated artifact
(e.g. a resource-fork companion with an archive extension). -/
def ctxArtZip : Ctx :=
  { is_auto_generated := fun p => p == ["d", "inner.zip"], locked := fun _ => false }

/-- A context classifying the directory `d/A` as an auto-generated artifact. -/
def ctxArtA : Ctx :=
  { is_auto_generated := fun p => p == ["d", "A"], locked := fun _ => false }

/-- A context where the artifact directory `d/A` is also locked, so its
removal raises `OSError`. -/
def ctxLockedA : Ctx :=
  { is_auto_generated := fun p => p == ["d", "A"], locked := fun p => p == ["d", "A"] }

/-- Sample tree: directory `d` containing the file `inner.zip`, the file `x`,
and the directory `A` holding the file `g`. -/
def tree0 : FSTree :=
  .dir [("d", .dir [("inner.zip", .file), ("x", .file), ("A", .dir [("g", .file)])])]

/-- Sample world over `tree0` with an empty log. -/
def w0 : World := { root := tree0, events := [] }

/-- Sample extractor instance: source `d/inner.zip`, destination `d`. -/
def ex0 : ArchExtractor := { src := ["d", "inner.zip"], dst := ["d"] }

/-- Does the last path component end in `.zip`? (A concrete stand-in for the
backend's extension registry in the examples.) -/
def hasZipExt (p : FPath) : Bool :=
  match (basename p).data.reverse with
  | 'p' :: 'i' :: 'z' :: '.' :: _ => true
  | _ => false

/-- A backend classifying `.zip` names as archives, whose probe always
succeeds and whose extraction succeeds leaving the tree unchanged. -/
def okBackend : Backend :=
  { is_archive := hasZipExt
    test_archive := fun _ _ _ => none
    extract_archive := fun _ _ _ t => (t, none) }

/-- Like `okBackend`, but extraction always fails (tree unchanged, error
reported). -/
def failBackend : Backend :=
  { is_archive := hasZipExt
    test_archive := fun _ _ _ => none
    extract_archive := fun _ _ _ t => (t, some "crc error") }

/-- Like `okBackend`, but the decode probe always fails. -/
def probeFailBackend : Backend :=
  { is_archive := hasZipExt
    test_archive := fun _ _ _ => some "not really an archive"
    extract_archive := fun _ _ _ t => (t, none) }

/-- A backend whose extraction always produces the fixed tree `dir []` of
height one: its output height is uniformly bounded. -/
def boundedBackend : Backend :=
  { is_archive := hasZipExt
    test_archive := fun _ _ _ => none
    extract_archive := fun _ _ _ _ => (.dir [], none) }

theorem pathLe_iff (r : FPath) : ∀ p, pathLe r p = true ↔ ∃ s, p = r ++ s := by
  induction r with
  | nil => intro p; simp [pathLe]
  | cons a r ih =>
      intro p
      cases p with
      | nil => simp [pathLe]
      | cons b p =>
          simp only [pathLe, List.cons_append, Bool.and_eq_true, beq_iff_eq, ih]
          constructor
          · rintro ⟨h1, s, h2⟩; exact ⟨s, by rw [h1, h2]⟩
          · rintro ⟨s, h⟩
            injection h with h1 h2
            exact ⟨h1.symm, s, h2⟩

theorem pathLe_refl (p : FPath) : pathLe p p = true := by
  rw [pathLe_iff]; exact ⟨[], by simp⟩

theorem pathLe_append (r s : FPath) : pathLe r (r ++ s) = true := by
  rw [pathLe_iff]; exact ⟨s, rfl⟩

theorem pathLe_length {r p : FPath} (h : pathLe r p = true) : r.length ≤ p.length := by
  rw [pathLe_iff] at h; obtain ⟨s, rfl⟩ := h; simp

theorem pathLe_trans {a b c : FPath} (h1 : pathLe a b = true) (h2 : pathLe b c = true) :
    pathLe a c = true := by
  rw [pathLe_iff] at h1 h2 ⊢
  obtain ⟨s, rfl⟩ := h1
  obtain ⟨t, rfl⟩ := h2
  exact ⟨s ++ t, by simp⟩

theorem pathLe_comparable {a b c : FPath} (h1 : pathLe a c = true) (h2 : pathLe b c = true) :
    pathLe a b = true ∨ pathLe b a = true := by
  induction a generalizing b c with
  | nil => left; rfl
  | cons x a ih =>
      cases b with
      | nil => right; rfl
      | cons y b =>
          cases c with
          | nil => exact absurd h1 (by simp [pathLe])
          | cons z c =>
              simp only [pathLe, Bool.and_eq_true, beq_iff_eq] at h1 h2 ⊢
              obtain ⟨rfl, h1⟩ := h1
              obtain ⟨rfl, h2⟩ := h2
              rcases ih h1 h2 with h | h
              · exact Or.inl ⟨rfl, h⟩
              · exact Or.inr ⟨rfl, h⟩

theorem pathLe_append_left (a : FPath) :
    ∀ r p, pathLe (a ++ r) (a ++ p) = pathLe r p := by
  induction a with
  | nil => intro r p; rfl
  | cons x a ih => intro r p; simp [pathLe, ih]

theorem not_pathLe_of_length_lt {r p : FPath} (h : p.length < r.length) :
    pathLe r p = false := by
  cases hrp : pathLe r p
  · rfl
  · exact absurd (pathLe_length hrp) (by omega)

theorem lookupAt_append (a : FPath) :
    ∀ (t : FSTree) (b : FPath),
      lookupAt t (a ++ b) =
        match lookupAt t a with
        | none => none
        | some u => lookupAt u b := by
  induction a with
  | nil => intro t b; simp [lookupAt]
  | cons n a ih =>
      intro t b
      cases t with
      | file => simp [lookupAt]
      | dir cs =>
          simp only [List.cons_append, lookupAt]
          cases lookupChild n cs with
          | none => rfl
          | some c => exact ih c b

theorem lookupChild_height {n : String} :
    ∀ {cs : List (String × FSTree)} {c : FSTree},
      lookupChild n cs = some c → height c ≤ heightC cs := by
  intro cs
  induction cs with
  | nil => intro c h; simp [lookupChild] at h
  | cons e cs ih =>
      intro c h
      obtain ⟨m, u⟩ := e
      simp only [lookupChild] at h
      split at h
      · cases h; simp [heightC]
      · exact le_trans (ih h) (by simp [heightC])

theorem length_le_height_of_lookupAt :
    ∀ (p : FPath) (t : FSTree), (lookupAt t p).isSome → p.length ≤ height t := by
  intro p
  induction p with
  | nil => intro t _; simp
  | cons n p ih =>
      intro t h
      cases t with
      | file => simp [lookupAt] at h
      | dir cs =>
          have : ∃ c, lookupChild n cs = some c ∧ (lookupAt c p).isSome := by
            simp only [lookupAt] at h
            cases hc : lookupChild n cs with
            | none => rw [hc] at h; simp at h
            | some c =>
                rw [hc] at h
                exact ⟨c, rfl, h⟩
          obtain ⟨c, h1, h2⟩ := this
          have := ih c h2
          have := lookupChild_height h1
          simp only [List.length_cons, height]
          omega

theorem lookupChild_removeAtC_ne {k n : String} (hkn : k ≠ n) (p : FPath) :
    ∀ cs, lookupChild k (removeAtC cs n p) = lookupChild k cs := by
  intro cs
  induction cs with
  | nil => simp [removeAtC]
  | cons c cs ih =>
      obtain ⟨m, t⟩ := c
      by_cases hm : m = n
      · subst hm
        have hmk : ¬ (m = k) := fun h => hkn (h ▸ rfl)
        cases p with
        | nil => simp [removeAtC, lookupChild, hmk, ih]
        | cons a p => simp [removeAtC, lookupChild, hmk, ih]
      · by_cases hmk : m = k
        · simp only [removeAtC, if_neg hm, lookupChild, if_pos hmk]
        · simp only [removeAtC, if_neg hm, lookupChild, if_neg hmk, ih]

theorem lookupChild_removeAtC_eq (n : String) (a : String) (p : FPath) :
    ∀ cs, lookupChild n (removeAtC cs n (a :: p)) =
      (lookupChild n cs).map (fun c => removeAt c (a :: p)) := by
  intro cs
  induction cs with
  | nil => simp [removeAtC, lookupChild]
  | cons c cs ih =>
      obtain ⟨m, t⟩ := c
      by_cases hm : m = n
      · simp [removeAtC, lookupChild, hm]
      · simp only [removeAtC, if_neg hm, lookupChild, if_neg hm, ih]

/-- Deleting at `r` does not affect the entry resolved at any path `p` that is
neither inside `r` nor an ancestor of `r`. -/
theorem lookupAt_removeAt_of_disjoint :
    ∀ (r : FPath) (t : FSTree) (p : FPath),
      pathLe r p = false → pathLe p r = false →
      lookupAt (removeAt t r) p = lookupAt t p := by
  intro r
  induction r with
  | nil => intro t p h1 _; exact absurd h1 (by simp [pathLe])
  | cons n r ih =>
      intro t p h1 h2
      cases t with
      | file => cases p <;> simp [removeAt, lookupAt]
      | dir cs =>
          cases p with
          | nil => exact absurd h2 (by simp [pathLe])
          | cons k p =>
              show lookupAt (.dir (removeAtC cs n r)) (k :: p) = lookupAt (.dir cs) (k :: p)
              by_cases hkn : k = n
              · subst hkn
                cases r with
                | nil => exact absurd h1 (by simp [pathLe, pathLe_iff])
                | cons a r' =>
                    simp only [lookupAt]
                    rw [lookupChild_removeAtC_eq]
                    cases hc : lookupChild k cs with
                    | none => rfl
                    | some c =>
                        simp only [Option.map_some]
                        exact ih c p (by simpa [pathLe] using h1) (by simpa [pathLe] using h2)
              · simp only [lookupAt]
                rw [lookupChild_removeAtC_ne hkn]

theorem lookupAt_dir_cons (k : String) (p : FPath) :
    ∀ ds, lookupAt (FSTree.dir ds) (k :: p) =
      match lookupChild k ds with
      | none => none
      | some c => lookupAt c p := by
  intro ds
  rfl

theorem heightC_removeChild_le (n : String) :
    ∀ cs, heightC (removeChild n cs) ≤ heightC cs := by
  intro cs
  induction cs with
  | nil => simp [removeChild]
  | cons c cs ih =>
      obtain ⟨m, t⟩ := c
      by_cases hm : m = n
      · simp only [removeChild, if_pos hm, heightC]
        exact le_trans ih (le_max_right _ _)
      · simp only [removeChild, if_neg hm, heightC]
        exact max_le_max (le_refl _) ih

theorem height_removeAt_le : ∀ (p : FPath) (t : FSTree), height (removeAt t p) ≤ height t := by
  intro p
  induction p with
  | nil => intro t; simp [removeAt]
  | cons n p ih =>
      intro t
      cases t with
      | file => simp [removeAt]
      | dir cs =>
          show height (.dir (removeAtC cs n p)) ≤ height (.dir cs)
          simp only [height]
          have h : heightC (removeAtC cs n p) ≤ heightC cs := by
            induction cs with
            | nil => simp [removeAtC]
            | cons c cs ihc =>
                obtain ⟨m, t⟩ := c
                by_cases hm : m = n
                · cases p with
                  | nil =>
                      simp only [removeAtC, if_pos hm, heightC]
                      exact le_trans ihc (le_max_right _ _)
                  | cons a q =>
                      simp only [removeAtC, if_pos hm, heightC]
                      exact max_le_max (ih t) ihc
                · simp only [removeAtC, if_neg hm, heightC]
                  exact max_le_max (le_refl _) ihc
          omega

/-! ## Walk lemmas -/

theorem delPass_events (ctx : Ctx) (top : FPath) (b : Bool) :
    ∀ (ns : List String) (t : FSTree) (evs : List Event),
      ∃ tail, (wstOf (delPass ctx top b ns (t, evs))).2 = evs ++ tail ∧
        ∀ e ∈ tail, isWalkEvent e = true := by
  intro ns
  induction ns with
  | nil => intro t evs; exact ⟨[], by simp [delPass, wstOf], by simp⟩
  | cons n ns ih =>
      intro t evs
      simp only [delPass]
      by_cases h1 : ctx.is_auto_generated (top ++ [n])
      · simp only [h1, if_pos]
        by_cases h2 : existsAt t (top ++ [n])
        · simp only [h2, if_pos]
          by_cases h3 : ctx.locked (top ++ [n])
          · simp only [h3, if_pos]
            exact ⟨[Event.artCheck (top ++ [n])], by simp [wstOf], by simp [isWalkEvent]⟩
          · simp only [h3, Bool.false_eq_true, if_false]
            obtain ⟨tail, he, hw⟩ := ih (removeAt t (top ++ [n]))
              (evs ++ [Event.artCheck (top ++ [n]),
                if b then Event.removedTree (top ++ [n]) else Event.removedFile (top ++ [n])])
            refine ⟨Event.artCheck (top ++ [n]) ::
              (if b then Event.removedTree (top ++ [n]) else Event.removedFile (top ++ [n])) ::
              tail, ?_, ?_⟩
            · simpa using he
            · intro e he'
              simp only [List.mem_cons] at he'
              rcases he' with rfl | he' 
              · simp [isWalkEvent]
              rcases he' with rfl | he'
              · cases b <;> simp [isWalkEvent]
              · exact hw e he'
        · simp only [h2, Bool.false_eq_true, if_false]
          obtain ⟨tail, he, hw⟩ := ih t (evs ++ [Event.artCheck (top ++ [n])])
          refine ⟨Event.artCheck (top ++ [n]) :: tail, by simpa using he, ?_⟩
          intro e he'
          rcases List.mem_cons.mp he' with rfl | he'
          · simp [isWalkEvent]
          · exact hw e he'
      · simp only [h1, Bool.false_eq_true, if_false]
        obtain ⟨tail, he, hw⟩ := ih t (evs ++ [Event.artCheck (top ++ [n])])
        refine ⟨Event.artCheck (top ++ [n]) :: tail, by simpa using he, ?_⟩
        intro e he'
        rcases List.mem_cons.mp he' with rfl | he'
        · simp [isWalkEvent]
        · exact hw e he'

theorem delPass_ok_of_noLock (ctx : Ctx) (top : FPath) (b : Bool)
    (hnl : ∀ p, ctx.locked p = false) :
    ∀ (ns : List String) (t : FSTree) (evs : List Event),
      ∃ st, delPass ctx top b ns (t, evs) = .ok st := by
  intro ns
  induction ns with
  | nil => intro t evs; exact ⟨(t, evs), rfl⟩
  | cons n ns ih =>
      intro t evs
      simp only [delPass, hnl (top ++ [n]), Bool.false_eq_true, if_false]
      by_cases h1 : ctx.is_auto_generated (top ++ [n])
      · simp only [h1, if_pos]
        by_cases h2 : existsAt t (top ++ [n])
        · simp only [h2, if_pos]; exact ih _ _
        · simp only [h2, Bool.false_eq_true, if_false]; exact ih _ _
      · simp only [h1, Bool.false_eq_true, if_false]; exact ih _ _

theorem delPass_checks (ctx : Ctx) (top : FPath) (b : Bool)
    (hnl : ∀ p, ctx.locked p = false) :
    ∀ (ns : List String) (t : FSTree) (evs : List Event) (m : String), m ∈ ns →
      Event.artCheck (top ++ [m]) ∈ (wstOf (delPass ctx top b ns (t, evs))).2 := by
  intro ns
  induction ns with
  | nil => intro t evs m hm; simp at hm
  | cons n ns ih =>
      intro t evs m hm
      have hmem : ∀ (t' : FSTree) (evs' : List Event), Event.artCheck (top ++ [m]) ∈ evs' →
          Event.artCheck (top ++ [m]) ∈ (wstOf (delPass ctx top b ns (t', evs'))).2 := by
        intro t' evs' h
        obtain ⟨tail, he, _⟩ := delPass_events ctx top b ns t' evs'
        rw [he]; exact List.mem_append_left _ h
      rcases List.mem_cons.mp hm with rfl | hm
      · simp only [delPass, hnl (top ++ [m]), Bool.false_eq_true, if_false]
        by_cases h1 : ctx.is_auto_generated (top ++ [m])
        · simp only [h1, if_pos]
          by_cases h2 : existsAt t (top ++ [m])
          · simp only [h2, if_pos]; exact hmem _ _ (by simp)
          · simp only [h2, Bool.false_eq_true, if_false]; exact hmem _ _ (by simp)
        · simp only [h1, Bool.false_eq_true, if_false]; exact hmem _ _ (by simp)
      · simp only [delPass, hnl (top ++ [n]), Bool.false_eq_true, if_false]
        by_cases h1 : ctx.is_auto_generated (top ++ [n])
        · simp only [h1, if_pos]
          by_cases h2 : existsAt t (top ++ [n])
          · simp only [h2, if_pos]; exact ih _ _ m hm
          · simp only [h2, Bool.false_eq_true, if_false]; exact ih _ _ m hm
        · simp only [h1, Bool.false_eq_true, if_false]; exact ih _ _ m hm

theorem delPass_tree (ctx : Ctx) (top : FPath) (b : Bool) :
    ∀ (ns : List String) (t : FSTree) (evs : List Event) (p : FPath),
      (∀ m, ctx.is_auto_generated (top ++ [m]) = true → pathLe (top ++ [m]) p = false) →
      (∀ m, pathLe p (top ++ [m]) = false) →
      lookupAt (wstOf (delPass ctx top b ns (t, evs))).1 p = lookupAt t p := by
  intro ns
  induction ns with
  | nil => intro t evs p _ _; simp [delPass, wstOf]
  | cons n ns ih =>
      intro t evs p hart hp2
      simp only [delPass]
      by_cases h1 : ctx.is_auto_generated (top ++ [n])
      · simp only [h1, if_pos]
        by_cases h2 : existsAt t (top ++ [n])
        · simp only [h2, if_pos]
          by_cases h3 : ctx.locked (top ++ [n])
          · simp only [h3, if_pos]; simp [wstOf]
          · simp only [h3, Bool.false_eq_true, if_false]
            rw [ih _ _ p hart hp2]
            exact lookupAt_removeAt_of_disjoint (top ++ [n]) t p (hart n h1) (hp2 n)
        · simp only [h2, Bool.false_eq_true, if_false]; exact ih _ _ p hart hp2
      · simp only [h1, Bool.false_eq_true, if_false]; exact ih _ _ p hart hp2

theorem delPass_height (ctx : Ctx) (top : FPath) (b : Bool) :
    ∀ (ns : List String) (t : FSTree) (evs : List Event),
      height (wstOf (delPass ctx top b ns (t, evs))).1 ≤ height t := by
  intro ns
  induction ns with
  | nil => intro t evs; simp [delPass, wstOf]
  | cons n ns ih =>
      intro t evs
      simp only [delPass]
      by_cases h1 : ctx.is_auto_generated (top ++ [n])
      · simp only [h1, if_pos]
        by_cases h2 : existsAt t (top ++ [n])
        · simp only [h2, if_pos]
          by_cases h3 : ctx.locked (top ++ [n])
          · simp only [h3, if_pos]; simp [wstOf]
          · simp only [h3, Bool.false_eq_true, if_false]
            exact le_trans (ih _ _) (height_removeAt_le _ _)
        · simp only [h2, Bool.false_eq_true, if_false]; exact ih _ _
      · simp only [h1, Bool.false_eq_true, if_false]; exact ih _ _

theorem runDirs_events (walker : FPath → WSt → Except WSt WSt) (top : FPath)
    (hw : ∀ p t evs, ∃ tail, (wstOf (walker p (t, evs))).2 = evs ++ tail ∧
      ∀ e ∈ tail, isWalkEvent e = true) :
    ∀ (ns : List String) (t : FSTree) (evs : List Event),
      ∃ tail, (wstOf (runDirs walker top ns (t, evs))).2 = evs ++ tail ∧
        ∀ e ∈ tail, isWalkEvent e = true := by
  intro ns
  induction ns with
  | nil => intro t evs; exact ⟨[], by simp [runDirs, wstOf], by simp⟩
  | cons n ns ih =>
      intro t evs
      simp only [runDirs]
      cases hk : walker (top ++ [n]) (t, evs) with
      | error st =>
          obtain ⟨tail, he, hall⟩ := hw (top ++ [n]) t evs
          rw [hk] at he
          exact ⟨tail, he, hall⟩
      | ok st =>
          obtain ⟨tail, he, hall⟩ := hw (top ++ [n]) t evs
          rw [hk] at he
          obtain ⟨tail', he', hall'⟩ := ih st.1 st.2
          refine ⟨tail ++ tail', ?_, ?_⟩
          · have : st.2 = evs ++ tail := he
            rw [← List.append_assoc, ← this]
            simpa using he'
          · intro e hme
            rcases List.mem_append.mp hme with h | h
            · exact hall e h
            · exact hall' e h

theorem runDirs_ok (walker : FPath → WSt → Except WSt WSt) (top : FPath)
    (hw : ∀ p st, ∃ st', walker p st = .ok st') :
    ∀ (ns : List String) (st : WSt), ∃ st', runDirs walker top ns st = .ok st' := by
  intro ns
  induction ns with
  | nil => intro st; exact ⟨st, rfl⟩
  | cons n ns ih =>
      intro st
      obtain ⟨st', hk⟩ := hw (top ++ [n]) st
      simp only [runDirs, hk]
      exact ih st'

theorem runDirs_tree (walker : FPath → WSt → Except WSt WSt) (top : FPath)
    (hw : ∀ n t evs p, pathLe (top ++ [n]) p = false → pathLe p (top ++ [n]) = false →
      lookupAt (wstOf (walker (top ++ [n]) (t, evs))).1 p = lookupAt t p) :
    ∀ (ns : List String) (t : FSTree) (evs : List Event) (p : FPath),
      pathLe top p = false → pathLe p top = false →
      lookupAt (wstOf (runDirs walker top ns (t, evs))).1 p = lookupAt t p := by
  intro ns
  induction ns with
  | nil => intro t evs p _ _; simp [runDirs, wstOf]
  | cons n ns ih =>
      intro t evs p h1 h2
      have hd1 : pathLe (top ++ [n]) p = false := by
        cases h : pathLe (top ++ [n]) p
        · rfl
        · exact absurd (pathLe_trans (pathLe_append top [n]) h) (by rw [h1]; simp)
      have hd2 : pathLe p (top ++ [n]) = false := by
        cases h : pathLe p (top ++ [n])
        · rfl
        · rcases pathLe_comparable h (pathLe_append top [n]) with hc | hc
          · exact absurd hc (by rw [h2]; simp)
          · exact absurd hc (by rw [h1]; simp)
      simp only [runDirs]
      cases hk : walker (top ++ [n]) (t, evs) with
      | error st =>
          have := hw n t evs p hd1 hd2
          rw [hk] at this
          exact this
      | ok st =>
          have hpres := hw n t evs p hd1 hd2
          rw [hk] at hpres
          simp only [wstOf] at hpres
          rw [ih st.1 st.2 p h1 h2]
          exact hpres

theorem runDirs_height (walker : FPath → WSt → Except WSt WSt) (top : FPath)
    (hw : ∀ p t evs, height (wstOf (walker p (t, evs))).1 ≤ height t) :
    ∀ (ns : List String) (t : FSTree) (evs : List Event),
      height (wstOf (runDirs walker top ns (t, evs))).1 ≤ height t := by
  intro ns
  induction ns with
  | nil => intro t evs; simp [runDirs, wstOf]
  | cons n ns ih =>
      intro t evs
      simp only [runDirs]
      cases hk : walker (top ++ [n]) (t, evs) with
      | error st =>
          have := hw (top ++ [n]) t evs
          rw [hk] at this
          exact this
      | ok st =>
          have h1 := hw (top ++ [n]) t evs
          rw [hk] at h1
          simp only [wstOf] at h1
          exact le_trans (ih st.1 st.2) h1

theorem tail_trans {evs a b tail1 tail2 : List Event}
    (h1 : a = evs ++ tail1) (hall1 : ∀ e ∈ tail1, isWalkEvent e = true)
    (h2 : b = a ++ tail2) (hall2 : ∀ e ∈ tail2, isWalkEvent e = true) :
    ∃ tail, b = evs ++ tail ∧ ∀ e ∈ tail, isWalkEvent e = true := by
  refine ⟨tail1 ++ tail2, by rw [h2, h1, List.append_assoc], ?_⟩
  intro e he
  rcases List.mem_append.mp he with h | h
  · exact hall1 e h
  · exact hall2 e h

theorem walkRec_events (ctx : Ctx) :
    ∀ (fuel : Nat) (top : FPath) (t : FSTree) (evs : List Event),
      ∃ tail, (wstOf (walkRec ctx fuel top (t, evs))).2 = evs ++ tail ∧
        ∀ e ∈ tail, isWalkEvent e = true := by
  intro fuel
  induction fuel with
  | zero => intro top t evs; exact ⟨[], by simp [walkRec, wstOf], by simp⟩
  | succ fuel ih =>
      intro top t evs
      cases hl : lookupAt t top with
      | none => exact ⟨[], by simp [walkRec, hl, wstOf], by simp⟩
      | some u =>
          cases u with
          | file => exact ⟨[], by simp [walkRec, hl, wstOf], by simp⟩
          | dir cs =>
              obtain ⟨tl1, he1, ha1⟩ := delPass_events ctx top true (dirNames cs) t evs
              cases hd1 : delPass ctx top true (dirNames cs) (t, evs) with
              | error st =>
                  have hres : walkRec ctx (fuel + 1) top (t, evs) = .error st := by
                    simp [walkRec, hl, hd1]
                  rw [hd1] at he1
                  rw [hres]
                  exact ⟨tl1, he1, ha1⟩
              | ok st =>
                  rw [hd1] at he1
                  simp only [wstOf] at he1
                  obtain ⟨tl2, he2, ha2⟩ := delPass_events ctx top false (fileNames cs) st.1 st.2
                  have he2' : (wstOf (delPass ctx top false (fileNames cs) st)).2 =
                      st.2 ++ tl2 := he2
                  cases hd2 : delPass ctx top false (fileNames cs) st with
                  | error st2 =>
                      have hres : walkRec ctx (fuel + 1) top (t, evs) = .error st2 := by
                        simp [walkRec, hl, hd1, hd2]
                      rw [hd2] at he2'
                      rw [hres]
                      exact tail_trans he1 ha1 he2' ha2
                  | ok st2 =>
                      rw [hd2] at he2'
                      simp only [wstOf] at he2'
                      obtain ⟨tl3, he3, ha3⟩ := runDirs_events (walkRec ctx fuel) top
                        (fun p t' evs' => ih p t' evs') (dirNames cs) st2.1 st2.2
                      have he3' : (wstOf (runDirs (walkRec ctx fuel) top (dirNames cs) st2)).2 =
                          st2.2 ++ tl3 := he3
                      have hres : walkRec ctx (fuel + 1) top (t, evs) =
                          runDirs (walkRec ctx fuel) top (dirNames cs) st2 := by
                        simp [walkRec, hl, hd1, hd2]
                      rw [hres]
                      obtain ⟨tl12, h12, ha12⟩ := tail_trans he1 ha1 he2' ha2
                      exact tail_trans h12 ha12 he3' ha3

theorem walkRec_ok_of_noLock (ctx : Ctx) (hnl : ∀ p, ctx.locked p = false) :
    ∀ (fuel : Nat) (top : FPath) (st : WSt),
      ∃ st', walkRec ctx fuel top st = .ok st' := by
  intro fuel
  induction fuel with
  | zero => intro top st; exact ⟨st, rfl⟩
  | succ fuel ih =>
      intro top st
      obtain ⟨t, evs⟩ := st
      cases hl : lookupAt t top with
      | none => exact ⟨(t, evs), by simp [walkRec, hl]⟩
      | some u =>
          cases u with
          | file => exact ⟨(t, evs), by simp [walkRec, hl]⟩
          | dir cs =>
              obtain ⟨st1, hd1⟩ := delPass_ok_of_noLock ctx top true hnl (dirNames cs) t evs
              obtain ⟨st2, hd2⟩ := delPass_ok_of_noLock ctx top false hnl (fileNames cs) st1.1 st1.2
              have hd2' : delPass ctx top false (fileNames cs) st1 = .ok st2 := hd2
              obtain ⟨st3, hd3⟩ := runDirs_ok (walkRec ctx fuel) top
                (fun p st' => ih p st') (dirNames cs) st2
              exact ⟨st3, by simp [walkRec, hl, hd1, hd2', hd3]⟩

theorem walkRec_tree (ctx : Ctx) :
    ∀ (fuel : Nat) (top : FPath) (t : FSTree) (evs : List Event) (p : FPath),
      pathLe top p = false → pathLe p top = false →
      lookupAt (wstOf (walkRec ctx fuel top (t, evs))).1 p = lookupAt t p := by
  intro fuel
  induction fuel with
  | zero => intro top t evs p _ _; simp [walkRec, wstOf]
  | succ fuel ih =>
      intro top t evs p h1 h2
      have hart : ∀ m : String, pathLe (top ++ [m]) p = false := by
        intro m
        cases h : pathLe (top ++ [m]) p
        · rfl
        · exact absurd (pathLe_trans (pathLe_append top [m]) h) (by rw [h1]; simp)
      have hp2 : ∀ m : String, pathLe p (top ++ [m]) = false := by
        intro m
        cases h : pathLe p (top ++ [m])
        · rfl
        · rcases pathLe_comparable h (pathLe_append top [m]) with hc | hc
          · exact absurd hc (by rw [h2]; simp)
          · exact absurd hc (by rw [h1]; simp)
      cases hl : lookupAt t top with
      | none => simp [walkRec, hl, wstOf]
      | some u =>
          cases u with
          | file => simp [walkRec, hl, wstOf]
          | dir cs =>
              have d1 := delPass_tree ctx top true (dirNames cs) t evs p
                (fun m _ => hart m) hp2
              cases hd1 : delPass ctx top true (dirNames cs) (t, evs) with
              | error st =>
                  have hres : walkRec ctx (fuel + 1) top (t, evs) = .error st := by
                    simp [walkRec, hl, hd1]
                  rw [hd1] at d1
                  rw [hres]
                  exact d1
              | ok st =>
                  rw [hd1] at d1
                  simp only [wstOf] at d1
                  have d2 := delPass_tree ctx top false (fileNames cs) st.1 st.2 p
                    (fun m _ => hart m) hp2
                  have d2' : lookupAt (wstOf (delPass ctx top false (fileNames cs) st)).1 p =
                      lookupAt st.1 p := d2
                  cases hd2 : delPass ctx top false (fileNames cs) st with
                  | error st2 =>
                      have hres : walkRec ctx (fuel + 1) top (t, evs) = .error st2 := by
                        simp [walkRec, hl, hd1, hd2]
                      rw [hd2] at d2'
                      simp only [wstOf] at d2'
                      rw [hres]
                      simp only [wstOf]
                      rw [d2']; exact d1
                  | ok st2 =>
                      rw [hd2] at d2'
                      simp only [wstOf] at d2'
                      have d3 := runDirs_tree (walkRec ctx fuel) top
                        (fun n t' evs' p' hp1' hp2' => ih (top ++ [n]) t' evs' p' hp1' hp2')
                        (dirNames cs) st2.1 st2.2 p h1 h2
                      have d3' : lookupAt (wstOf (runDirs (walkRec ctx fuel) top
                          (dirNames cs) st2)).1 p = lookupAt st2.1 p := d3
                      have hres : walkRec ctx (fuel + 1) top (t, evs) =
                          runDirs (walkRec ctx fuel) top (dirNames cs) st2 := by
                        simp [walkRec, hl, hd1, hd2]
                      rw [hres, d3', d2']
                      exact d1

theorem walkRec_height (ctx : Ctx) :
    ∀ (fuel : Nat) (top : FPath) (t : FSTree) (evs : List Event),
      height (wstOf (walkRec ctx fuel top (t, evs))).1 ≤ height t := by
  intro fuel
  induction fuel with
  | zero => intro top t evs; simp [walkRec, wstOf]
  | succ fuel ih =>
      intro top t evs
      cases hl : lookupAt t top with
      | none => simp [walkRec, hl, wstOf]
      | some u =>
          cases u with
          | file => simp [walkRec, hl, wstOf]
          | dir cs =>
              have d1 := delPass_height ctx top true (dirNames cs) t evs
              cases hd1 : delPass ctx top true (dirNames cs) (t, evs) with
              | error st =>
                  have hres : walkRec ctx (fuel + 1) top (t, evs) = .error st := by
                    simp [walkRec, hl, hd1]
                  rw [hd1] at d1
                  rw [hres]
                  exact d1
              | ok st =>
                  rw [hd1] at d1
                  simp only [wstOf] at d1
                  have d2 : height (wstOf (delPass ctx top false (fileNames cs) st)).1 ≤
                      height st.1 := delPass_height ctx top false (fileNames cs) st.1 st.2
                  cases hd2 : delPass ctx top false (fileNames cs) st with
                  | error st2 =>
                      have hres : walkRec ctx (fuel + 1) top (t, evs) = .error st2 := by
                        simp [walkRec, hl, hd1, hd2]
                      rw [hd2] at d2
                      simp only [wstOf] at d2
                      rw [hres]
                      simp only [wstOf]
                      exact le_trans d2 d1
                  | ok st2 =>
                      rw [hd2] at d2
                      simp only [wstOf] at d2
                      have d3 : height (wstOf (runDirs (walkRec ctx fuel) top
                          (dirNames cs) st2)).1 ≤ height st2.1 :=
                        runDirs_height (walkRec ctx fuel) top
                          (fun p t' evs' => ih p t' evs') (dirNames cs) st2.1 st2.2
                      have hres : walkRec ctx (fuel + 1) top (t, evs) =
                          runDirs (walkRec ctx fuel) top (dirNames cs) st2 := by
                        simp [walkRec, hl, hd1, hd2]
                      rw [hres]
                      exact le_trans (le_trans d3 d2) d1

theorem lookupChild_mem {n : String} :
    ∀ {cs : List (String × FSTree)} {c : FSTree},
      lookupChild n cs = some c → (n, c) ∈ cs := by
  intro cs
  induction cs with
  | nil => intro c h; simp [lookupChild] at h
  | cons e cs ih =>
      intro c h
      obtain ⟨m, u⟩ := e
      simp only [lookupChild] at h
      split at h
      · rename_i hm
        cases h
        subst hm
        exact List.mem_cons_self _ _
      · exact List.mem_cons_of_mem _ (ih h)

theorem mem_dirNames {n : String} {c : FSTree} {cs : List (String × FSTree)}
    (hm : (n, c) ∈ cs) (hd : isDirT c = true) : n ∈ dirNames cs := by
  simp only [dirNames, List.mem_map]
  exact ⟨(n, c), List.mem_filter.mpr ⟨hm, hd⟩, rfl⟩

theorem mem_fileNames {n : String} {c : FSTree} {cs : List (String × FSTree)}
    (hm : (n, c) ∈ cs) (hd : isDirT c = false) : n ∈ fileNames cs := by
  simp only [fileNames, List.mem_map]
  exact ⟨(n, c), List.mem_filter.mpr ⟨hm, by simp [hd]⟩, rfl⟩

theorem mem_delPass_mono (ctx : Ctx) (top : FPath) (b : Bool) (ns : List String)
    (t : FSTree) (evs : List Event) {e : Event} (h : e ∈ evs) :
    e ∈ (wstOf (delPass ctx top b ns (t, evs))).2 := by
  obtain ⟨tail, he, _⟩ := delPass_events ctx top b ns t evs
  rw [he]
  exact List.mem_append_left _ h

theorem mem_walkRec_mono (ctx : Ctx) (fuel : Nat) (top : FPath) (st : WSt)
    {e : Event} (h : e ∈ st.2) :
    e ∈ (wstOf (walkRec ctx fuel top st)).2 := by
  obtain ⟨tail, he, _⟩ := walkRec_events ctx fuel top st.1 st.2
  have he' : (wstOf (walkRec ctx fuel top st)).2 = st.2 ++ tail := he
  rw [he']
  exact List.mem_append_left _ h

theorem mem_runDirs_mono (ctx : Ctx) (fuel : Nat) (top : FPath) (ns : List String)
    (st : WSt) {e : Event} (h : e ∈ st.2) :
    e ∈ (wstOf (runDirs (walkRec ctx fuel) top ns st)).2 := by
  obtain ⟨tail, he, _⟩ := runDirs_events (walkRec ctx fuel) top
    (fun p t' evs' => walkRec_events ctx fuel p t' evs') ns st.1 st.2
  have he' : (wstOf (runDirs (walkRec ctx fuel) top ns st)).2 = st.2 ++ tail := he
  rw [he']
  exact List.mem_append_left _ h

/-- Every entry of the subtree that is not inside a removed artifact directory
(all its proper ancestors below the walk root are classified non-artifact) has
the artifact predicate evaluated on it by the walk, provided no path is locked
and the fuel covers its depth. -/
theorem walkRec_covers (ctx : Ctx) (hnl : ∀ p, ctx.locked p = false) :
    ∀ (q : FPath) (fuel : Nat) (top : FPath) (t : FSTree) (evs : List Event),
      q ≠ [] → q.length ≤ fuel →
      (lookupAt t (top ++ q)).isSome = true →
      (∀ r, r ≠ [] → r.length < q.length → pathLe r q = true →
        ctx.is_auto_generated (top ++ r) = false) →
      Event.artCheck (top ++ q) ∈ (wstOf (walkRec ctx fuel top (t, evs))).2 := by
  intro q
  induction q with
  | nil => intro fuel top t evs hne; exact absurd rfl hne
  | cons n q ih =>
      intro fuel top t evs _ hfuel hsome hart
      cases fuel with
      | zero => simp at hfuel
      | succ f =>
      cases hu : lookupAt t top with
      | none =>
          rw [lookupAt_append, hu] at hsome
          simp at hsome
      | some u =>
          cases u with
          | file =>
              rw [lookupAt_append, hu] at hsome
              simp [lookupAt] at hsome
          | dir cs =>
              have hsome1 : (lookupAt (FSTree.dir cs) (n :: q)).isSome = true := by
                rw [lookupAt_append, hu] at hsome
                exact hsome
              rw [lookupAt_dir_cons] at hsome1
              cases hc : lookupChild n cs with
              | none => rw [hc] at hsome1; simp at hsome1
              | some c =>
                  rw [hc] at hsome1
                  have hcq : (lookupAt c q).isSome = true := hsome1
                  obtain ⟨st1, hd1⟩ := delPass_ok_of_noLock ctx top true hnl (dirNames cs) t evs
                  obtain ⟨st2, hd2p⟩ :=
                    delPass_ok_of_noLock ctx top false hnl (fileNames cs) st1.1 st1.2
                  have hd2 : delPass ctx top false (fileNames cs) st1 = .ok st2 := hd2p
                  have hres : walkRec ctx (f + 1) top (t, evs) =
                      runDirs (walkRec ctx f) top (dirNames cs) st2 := by
                    simp [walkRec, hu, hd1, hd2]
                  rw [hres]
                  cases c with
                  | file =>
                      cases q with
                      | cons a q2 => simp [lookupAt] at hcq
                      | nil =>
                          have hmem : n ∈ fileNames cs :=
                            mem_fileNames (lookupChild_mem hc) rfl
                          have h1 := delPass_checks ctx top false hnl (fileNames cs)
                            st1.1 st1.2 n hmem
                          have h1' : Event.artCheck (top ++ [n]) ∈
                              (wstOf (delPass ctx top false (fileNames cs) st1)).2 := h1
                          rw [hd2] at h1'
                          simp only [wstOf] at h1'
                          exact mem_runDirs_mono ctx f top (dirNames cs) st2 h1'
                  | dir cs2 =>
                      cases q with
                      | nil =>
                          have hmem : n ∈ dirNames cs :=
                            mem_dirNames (lookupChild_mem hc) rfl
                          have h1 := delPass_checks ctx top true hnl (dirNames cs)
                            t evs n hmem
                          rw [hd1] at h1
                          simp only [wstOf] at h1
                          have h2 := mem_delPass_mono ctx top false (fileNames cs)
                            st1.1 st1.2 h1
                          have h2' : Event.artCheck (top ++ [n]) ∈
                              (wstOf (delPass ctx top false (fileNames cs) st1)).2 := h2
                          rw [hd2] at h2'
                          simp only [wstOf] at h2'
                          exact mem_runDirs_mono ctx f top (dirNames cs) st2 h2'
                      | cons a q2 =>
                      have hqne : (a :: q2) ≠ [] := List.cons_ne_nil a q2
                      have hartn : ctx.is_auto_generated (top ++ [n]) = false :=
                        hart [n] (List.cons_ne_nil n []) (by simp) (by simp [pathLe])
                      have hlenp : top.length + 2 ≤ (top ++ n :: a :: q2).length := by
                        simp
                      have hhyp1 : ∀ m, ctx.is_auto_generated (top ++ [m]) = true →
                          pathLe (top ++ [m]) (top ++ n :: a :: q2) = false := by
                        intro m hm
                        by_cases hmn : m = n
                        · subst hmn; rw [hartn] at hm; cases hm
                        · have : pathLe (top ++ [m]) (top ++ n :: a :: q2) =
                              pathLe [m] (n :: a :: q2) := pathLe_append_left top [m] _
                          rw [this]
                          simp [pathLe, hmn]
                      have hhyp2 : ∀ m, pathLe (top ++ n :: a :: q2) (top ++ [m]) = false := by
                        intro m
                        exact not_pathLe_of_length_lt (by simp)
                      have hts1 := delPass_tree ctx top true (dirNames cs) t evs
                        (top ++ n :: a :: q2) hhyp1 hhyp2
                      rw [hd1] at hts1
                      simp only [wstOf] at hts1
                      have hts2 := delPass_tree ctx top false (fileNames cs) st1.1 st1.2
                        (top ++ n :: a :: q2) hhyp1 hhyp2
                      have hts2' : lookupAt
                          (wstOf (delPass ctx top false (fileNames cs) st1)).1
                          (top ++ n :: a :: q2) = lookupAt st1.1 (top ++ n :: a :: q2) := hts2
                      rw [hd2] at hts2'
                      simp only [wstOf] at hts2'
                      have hfull : lookupAt t (top ++ n :: a :: q2) =
                          lookupAt (FSTree.dir cs2) (a :: q2) := by
                        rw [lookupAt_append, hu]
                        show lookupAt (FSTree.dir cs) (n :: a :: q2) = _
                        rw [lookupAt_dir_cons, hc]
                      have hsome2 : (lookupAt st2.1 (top ++ n :: a :: q2)).isSome = true := by
                        rw [hts2', hts1, hfull]
                        exact hcq
                      have hmemdir : n ∈ dirNames cs :=
                        mem_dirNames (lookupChild_mem hc) rfl
                      have aux : ∀ (ds : List String) (st : WSt), n ∈ ds →
                          (lookupAt st.1 (top ++ n :: a :: q2)).isSome = true →
                          Event.artCheck (top ++ n :: a :: q2) ∈
                            (wstOf (runDirs (walkRec ctx f) top ds st)).2 := by
                        intro ds
                        induction ds with
                        | nil => intro st hmem _; exact absurd hmem (List.not_mem_nil n)
                        | cons m ds ihd =>
                            intro st hmem hlook
                            obtain ⟨st', hw⟩ := walkRec_ok_of_noLock ctx hnl f (top ++ [m]) st
                            by_cases hmn : m = n
                            · subst hmn
                              have hf2 : (a :: q2).length ≤ f := by
                                simp only [List.length_cons] at hfuel ⊢
                                omega
                              have hart2 : ∀ r, r ≠ [] → r.length < (a :: q2).length →
                                  pathLe r (a :: q2) = true →
                                  ctx.is_auto_generated ((top ++ [m]) ++ r) = false := by
                                intro r hr hlen hple
                                have heq : (top ++ [m]) ++ r = top ++ (m :: r) := by
                                  simp
                                rw [heq]
                                refine hart (m :: r) (List.cons_ne_nil m r) ?_ ?_
                                · simp only [List.length_cons] at hlen ⊢
                                  omega
                                · simp [pathLe, hple]
                              have hlook2 : (lookupAt st.1 ((top ++ [m]) ++ a :: q2)).isSome
                                  = true := by
                                have heq : (top ++ [m]) ++ a :: q2 = top ++ m :: a :: q2 := by
                                  simp
                                rw [heq]
                                exact hlook
                              have hfire := ih f (top ++ [m]) st.1 st.2 hqne hf2 hlook2 hart2
                              have hfire' : Event.artCheck ((top ++ [m]) ++ a :: q2) ∈
                                  (wstOf (walkRec ctx f (top ++ [m]) st)).2 := hfire
                              rw [hw] at hfire'
                              simp only [wstOf] at hfire'
                              have hgoal := mem_runDirs_mono ctx f top ds st' hfire'
                              have heq : (top ++ [m]) ++ a :: q2 = top ++ m :: a :: q2 := by
                                simp
                              rw [heq] at hgoal
                              have hred : runDirs (walkRec ctx f) top (m :: ds) st =
                                  runDirs (walkRec ctx f) top ds st' := by
                                simp [runDirs, hw]
                              rw [hred]
                              exact hgoal
                            · have hnd1 : pathLe (top ++ [m]) (top ++ n :: a :: q2) = false := by
                                rw [show pathLe (top ++ [m]) (top ++ n :: a :: q2) =
                                      pathLe [m] (n :: a :: q2) from pathLe_append_left top _ _]
                                simp [pathLe, hmn]
                              have hnd2 : pathLe (top ++ n :: a :: q2) (top ++ [m]) = false :=
                                not_pathLe_of_length_lt (by simp)
                              have hpres := walkRec_tree ctx f (top ++ [m]) st.1 st.2
                                (top ++ n :: a :: q2) hnd1 hnd2
                              have hpres' : lookupAt (wstOf (walkRec ctx f (top ++ [m]) st)).1
                                  (top ++ n :: a :: q2) = lookupAt st.1 (top ++ n :: a :: q2) :=
                                hpres
                              rw [hw] at hpres'
                              simp only [wstOf] at hpres'
                              have hmem2 : n ∈ ds := by
                                rcases List.mem_cons.mp hmem with h | h
                                · exact absurd h.symm hmn
                                · exact h
                              have hred : runDirs (walkRec ctx f) top (m :: ds) st =
                                  runDirs (walkRec ctx f) top ds st' := by
                                simp [runDirs, hw]
                              rw [hred]
                              exact ihd st' hmem2 (by rw [hpres']; exact hlook)
                      exact aux (dirNames cs) st2 hmemdir hsome2

/-! ## Method-level lemmas -/

theorem test_archive_eq_notArchive (B : Backend) (self : ArchExtractor)
    (osrc : Option FPath) (opts : Opts) (w : World)
    (h : B.is_archive (osrc.getD self.src) = false) :
    self.test_archive B osrc opts w =
      .ok (false, self,
        { w with events := w.events ++ [Event.logNotArchive (osrc.getD self.src)] }) := by
  simp [ArchExtractor.test_archive, h]

theorem test_archive_eq_probeFail (B : Backend) (self : ArchExtractor)
    (osrc : Option FPath) (opts : Opts) (w : World) (e : PatErr)
    (h1 : B.is_archive (osrc.getD self.src) = true)
    (h2 : B.test_archive (osrc.getD self.src) opts w.root = some e) :
    self.test_archive B osrc opts w =
      .ok (false, self,
        { w with events := w.events ++ [Event.probeCall (osrc.getD self.src),
            Event.logTestFailed (osrc.getD self.src)] }) := by
  simp [ArchExtractor.test_archive, h1, h2]

theorem test_archive_eq_probeOk (B : Backend) (self : ArchExtractor)
    (osrc : Option FPath) (opts : Opts) (w : World)
    (h1 : B.is_archive (osrc.getD self.src) = true)
    (h2 : B.test_archive (osrc.getD self.src) opts w.root = none) :
    self.test_archive B osrc opts w =
      .ok (true, self,
        { w with events := w.events ++ [Event.probeCall (osrc.getD self.src)] }) := by
  simp [ArchExtractor.test_archive, h1, h2]

/-- `test_archive` always returns normally, with the unmodified instance, an
unmodified tree, and only log/probe events appended. -/
theorem test_archive_shape (B : Backend) (self : ArchExtractor)
    (osrc : Option FPath) (opts : Opts) (w : World) :
    ∃ b tail, self.test_archive B osrc opts w =
        .ok (b, self, { w with events := w.events ++ tail }) ∧
      (∀ e ∈ tail, e = Event.logNotArchive (osrc.getD self.src) ∨
        e = Event.probeCall (osrc.getD self.src) ∨
        e = Event.logTestFailed (osrc.getD self.src)) := by
  cases h1 : B.is_archive (osrc.getD self.src) with
  | false =>
      exact ⟨false, [Event.logNotArchive (osrc.getD self.src)],
        test_archive_eq_notArchive B self osrc opts w h1, by simp⟩
  | true =>
      cases h2 : B.test_archive (osrc.getD self.src) opts w.root with
      | none =>
          exact ⟨true, [Event.probeCall (osrc.getD self.src)],
            test_archive_eq_probeOk B self osrc opts w h1 h2, by simp⟩
      | some e =>
          exact ⟨false, [Event.probeCall (osrc.getD self.src),
              Event.logTestFailed (osrc.getD self.src)],
            test_archive_eq_probeFail B self osrc opts w e h1 h2, by simp⟩

theorem extract_eq_invalid (B : Backend) (ctx : Ctx) (self s1 : ArchExtractor)
    (osrc odst : Option FPath) (opts : Opts) (cleanup : Bool) (w w1 : World)
    (hv : self.test_archive B (some (osrc.getD self.src)) opts w = .ok (false, s1, w1)) :
    self.extract B ctx osrc odst opts cleanup w = .ok (s1, w1) := by
  simp [ArchExtractor.extract, hv]

theorem extract_eq_valid (B : Backend) (ctx : Ctx) (self s1 : ArchExtractor)
    (osrc odst : Option FPath) (opts : Opts) (cleanup : Bool) (w w1 : World)
    (hv : self.test_archive B (some (osrc.getD self.src)) opts w = .ok (true, s1, w1)) :
    self.extract B ctx osrc odst opts cleanup w =
      .ok (s1, finalize ctx (osrc.getD self.src) (odst.getD self.dst) cleanup
        (attemptWorld B (osrc.getD self.src) (odst.getD self.dst) opts w1)) := by
  simp [ArchExtractor.extract, hv]

theorem attemptWorld_events (B : Backend) (src dst : FPath) (opts : Opts) (w : World) :
    ∃ tail, (attemptWorld B src dst opts w).events = w.events ++ tail ∧
      ∀ e ∈ tail, e = Event.extractCall src dst ∨ e = Event.logExtractFailed src := by
  unfold attemptWorld
  cases hb : B.extract_archive src dst opts w.root with
  | mk t r =>
      cases r with
      | none => exact ⟨[Event.extractCall src dst], by simp, by simp⟩
      | some err =>
          exact ⟨[Event.extractCall src dst, Event.logExtractFailed src], by simp, by simp⟩

theorem finalize_events (ctx : Ctx) (src dst : FPath) (cleanup : Bool) (w : World) :
    ∃ tail, (finalize ctx src dst cleanup w).events = w.events ++ tail ∧
      ∀ e ∈ tail, isWalkEvent e = true ∨
        (e = Event.removedCleanup src ∧ cleanup = true) := by
  unfold finalize
  obtain ⟨tail, he, hall⟩ := walkRec_events ctx (height w.root + 1) dst w.root []
  cases hwk : walkRec ctx (height w.root + 1) dst (w.root, []) with
  | error st =>
      rw [hwk] at he
      simp only [wstOf] at he
      simp only [List.nil_append] at he
      exact ⟨st.2, by simp [he], fun e hme => Or.inl (hall e (he ▸ hme))⟩
  | ok st =>
      rw [hwk] at he
      simp only [wstOf] at he
      simp only [List.nil_append] at he
      by_cases hcl : cleanup && existsAt st.1 src
      · simp only [hcl, if_pos]
        by_cases hlk : ctx.locked src || isDirAt st.1 src
        · simp only [hlk, if_pos]
          exact ⟨st.2, by simp [he], fun e hme => Or.inl (hall e (he ▸ hme))⟩
        · simp only [hlk, Bool.false_eq_true, if_false]
          refine ⟨st.2 ++ [Event.removedCleanup src], by simp [he], ?_⟩
          intro e hme
          rcases List.mem_append.mp hme with h | h
          · exact Or.inl (hall e (he ▸ h))
          · simp only [List.mem_singleton] at h
            refine Or.inr ⟨h, ?_⟩
            simp only [Bool.and_eq_true] at hcl
            exact hcl.1
      · simp only [hcl, Bool.false_eq_true, if_false]
        exact ⟨st.2, by simp [he], fun e hme => Or.inl (hall e (he ▸ hme))⟩

theorem extract_ok (B : Backend) (ctx : Ctx) (self : ArchExtractor)
    (osrc odst : Option FPath) (opts : Opts) (cleanup : Bool) (w : World) :
    ∃ w', self.extract B ctx osrc odst opts cleanup w = .ok (self, w') := by
  obtain ⟨b, tail, hv, _⟩ := test_archive_shape B self (some (osrc.getD self.src)) opts w
  cases b
  · exact ⟨_, extract_eq_invalid B ctx self self osrc odst opts cleanup w _ hv⟩
  · exact ⟨_, extract_eq_valid B ctx self self osrc odst opts cleanup w _ hv⟩

theorem runSubs_ok_self (step : FPath → ArchExtractor × World → Except Exc (ArchExtractor × World))
    (isArch : FPath → Bool) (ed : FPath)
    (hstep : ∀ p s w, ∃ w', step p (s, w) = .ok (s, w')) :
    ∀ (ns : List String) (s : ArchExtractor) (w : World),
      ∃ w', runSubs step isArch ed ns (s, w) = .ok (s, w') := by
  intro ns
  induction ns with
  | nil => intro s w; exact ⟨w, rfl⟩
  | cons n ns ih =>
      intro s w
      cases ha : isArch (ed ++ [n]) with
      | false =>
          obtain ⟨w', hres⟩ := ih s w
          exact ⟨w', by simp [runSubs, ha, hres]⟩
      | true =>
          obtain ⟨w1, hs⟩ := hstep (ed ++ [n]) s w
          obtain ⟨w', hres⟩ := ih s w1
          exact ⟨w', by simp [runSubs, ha, hs, hres]⟩

theorem extractall_ok (B : Backend) (ctx : Ctx) :
    ∀ (fuel : Nat) (self : ArchExtractor) (osrc odst : Option FPath) (opts : Opts)
      (cleanup : Bool) (w : World),
      ∃ w', ArchExtractor.extractall B ctx fuel self osrc odst opts cleanup w =
        .ok (self, w') := by
  intro fuel
  induction fuel with
  | zero => intro self osrc odst opts cleanup w; exact ⟨w, rfl⟩
  | succ fuel ih =>
      intro self osrc odst opts cleanup w
      obtain ⟨w1, he⟩ := extract_ok B ctx self (some (osrc.getD self.src))
        (some (odst.getD self.dst)) opts cleanup w
      cases hl : lookupAt w1.root
          ((odst.getD self.dst) ++ [splitextRoot (basename (osrc.getD self.src))]) with
      | none => exact ⟨w1, by simp [ArchExtractor.extractall, he, hl]⟩
      | some u =>
          cases u with
          | file => exact ⟨w1, by simp [ArchExtractor.extractall, he, hl]⟩
          | dir cs =>
              obtain ⟨w', hres⟩ := runSubs_ok_self
                (fun p st => ArchExtractor.extractall B ctx fuel st.1
                  (some p) (some ((odst.getD self.dst) ++
                    [splitextRoot (basename (osrc.getD self.src))])) opts cleanup st.2)
                B.is_archive
                ((odst.getD self.dst) ++ [splitextRoot (basename (osrc.getD self.src))])
                (fun p s w'' => ih s (some p)
                  (some ((odst.getD self.dst) ++
                    [splitextRoot (basename (osrc.getD self.src))])) opts cleanup w'')
                (cs.map fun c => c.1) self w1
              exact ⟨w', by simp [ArchExtractor.extractall, he, hl]; exact hres⟩

/-! ## Claims -/

/-- **C1**: any backend failure raised during the phase-2 decode probe (inside
`test_archive`) or during the backend extraction call (inside `extract`) is
caught and logged and never propagates out as an unhandled exception:
`test_archive` always returns `.ok`, converting a probe failure into a `false`
return, `extract` always returns `.ok`, and the surrounding recursive
`extractall` run likewise always returns `.ok`; moreover a caught probe
failure is logged (the result world records exactly the probe invocation and
the `logTestFailed` line for the offending path) and a caught extraction
failure is logged (the result world of `extract` contains the
`logExtractFailed` line for the offending path). -/
theorem claim_C1 (B : Backend) (ctx : Ctx) (self : ArchExtractor)
    (osrc odst : Option FPath) (opts : Opts) (cleanup : Bool) (fuel : Nat) (w : World) :
    (∃ b s w', self.test_archive B osrc opts w = .ok (b, s, w')) ∧
    ((B.test_archive (osrc.getD self.src) opts w.root).isSome = true →
      ∃ s w', self.test_archive B osrc opts w = .ok (false, s, w')) ∧
    (∃ s w', self.extract B ctx osrc odst opts cleanup w = .ok (s, w')) ∧
    (∃ s w', ArchExtractor.extractall B ctx fuel self osrc odst opts cleanup w =
      .ok (s, w')) ∧
    (∀ e', B.is_archive (osrc.getD self.src) = true →
      B.test_archive (osrc.getD self.src) opts w.root = some e' →
      self.test_archive B osrc opts w =
        .ok (false, self,
          { w with events := w.events ++ [Event.probeCall (osrc.getD self.src),
              Event.logTestFailed (osrc.getD self.src)] })) ∧
    (∀ s1 w1 err,
      self.test_archive B (some (osrc.getD self.src)) opts w = .ok (true, s1, w1) →
      (B.extract_archive (osrc.getD self.src) (odst.getD self.dst) opts w1.root).2 =
        some err →
      ∃ w', self.extract B ctx osrc odst opts cleanup w = .ok (s1, w') ∧
        Event.logExtractFailed (osrc.getD self.src) ∈ w'.events) := by
  refine ⟨?_, ?_, ?_, ?_, ?_, ?_⟩
  · obtain ⟨b, tail, hv, _⟩ := test_archive_shape B self osrc opts w
    exact ⟨b, self, _, hv⟩
  · intro hprobe
    cases h1 : B.is_archive (osrc.getD self.src) with
    | false => exact ⟨self, _, test_archive_eq_notArchive B self osrc opts w h1⟩
    | true =>
        cases h2 : B.test_archive (osrc.getD self.src) opts w.root with
        | none => rw [h2] at hprobe; simp at hprobe
        | some e => exact ⟨self, _, test_archive_eq_probeFail B self osrc opts w e h1 h2⟩
  · obtain ⟨w', h⟩ := extract_ok B ctx self osrc odst opts cleanup w
    exact ⟨self, w', h⟩
  · obtain ⟨w', h⟩ := extractall_ok B ctx fuel self osrc odst opts cleanup w
    exact ⟨self, w', h⟩
  · intro e' h1 h2
    exact test_archive_eq_probeFail B self osrc opts w e' h1 h2
  · intro s1 w1 err hv hb
    refine ⟨finalize ctx (osrc.getD self.src) (odst.getD self.dst) cleanup
        (attemptWorld B (osrc.getD self.src) (odst.getD self.dst) opts w1),
      extract_eq_valid B ctx self s1 osrc odst opts cleanup w w1 hv, ?_⟩
    have hatt : (attemptWorld B (osrc.getD self.src) (odst.getD self.dst) opts w1).events =
        w1.events ++ [Event.extractCall (osrc.getD self.src) (odst.getD self.dst),
          Event.logExtractFailed (osrc.getD self.src)] := by
      unfold attemptWorld
      cases hbe : B.extract_archive (osrc.getD self.src) (odst.getD self.dst) opts
          w1.root with
      | mk t r =>
          cases r with
          | none => rw [hbe] at hb; simp at hb
          | some e => simp
    obtain ⟨tail, he, _⟩ := finalize_events ctx (osrc.getD self.src) (odst.getD self.dst)
      cleanup (attemptWorld B (osrc.getD self.src) (odst.getD self.dst) opts w1)
    rw [he, hatt]
    simp

theorem claim_C1_witness :
    ArchExtractor.test_archive probeFailBackend ex0 none opts0 w0 =
      .ok (false, ex0,
        { w0 with events := w0.events ++ [Event.probeCall ["d", "inner.zip"],
            Event.logTestFailed ["d", "inner.zip"]] }) ∧
    ∃ w', ArchExtractor.extract failBackend ctxPlain ex0 none none opts0 false w0 =
        .ok (ex0, w') ∧
      Event.logExtractFailed ["d", "inner.zip"] ∈ w'.events :=
  ⟨(claim_C1 probeFailBackend ctxPlain ex0 none none opts0 false 1 w0).2.2.2.2.1
      "not really an archive" rfl rfl,
   (claim_C1 failBackend ctxPlain ex0 none none opts0 false 1 w0).2.2.2.2.2
      ex0 { root := tree0, events := [Event.probeCall ["d", "inner.zip"]] }
      "crc error" rfl rfl⟩

/-- **C5**: `test_archive` returns `true` iff the coarse extension-based check
(`is_archive`) passes and the backend decode probe then succeeds; when the
coarse check fails, the result is `false` with only the coarse-failure log
appended — in particular the decode probe is never invoked (no probe event is
recorded). -/
theorem claim_C5 (B : Backend) (self : ArchExtractor) (osrc : Option FPath)
    (opts : Opts) (w : World) :
    ((∃ s w', self.test_archive B osrc opts w = .ok (true, s, w')) ↔
      (B.is_archive (osrc.getD self.src) = true ∧
       B.test_archive (osrc.getD self.src) opts w.root = none)) ∧
    (B.is_archive (osrc.getD self.src) = false →
      self.test_archive B osrc opts w =
        .ok (false, self,
          { w with events := w.events ++ [Event.logNotArchive (osrc.getD self.src)] })) := by
  constructor
  · constructor
    · rintro ⟨s, w', h⟩
      cases h1 : B.is_archive (osrc.getD self.src) with
      | false =>
          rw [test_archive_eq_notArchive B self osrc opts w h1] at h
          simp at h
      | true =>
          cases h2 : B.test_archive (osrc.getD self.src) opts w.root with
          | none => exact ⟨rfl, rfl⟩
          | some e =>
              rw [test_archive_eq_probeFail B self osrc opts w e h1 h2] at h
              simp at h
    · rintro ⟨h1, h2⟩
      exact ⟨self, _, test_archive_eq_probeOk B self osrc opts w h1 h2⟩
  · intro h1
    exact test_archive_eq_notArchive B self osrc opts w h1

theorem claim_C5_witness :
    (∃ s w', ArchExtractor.test_archive okBackend ex0 none opts0 w0 =
      .ok (true, s, w')) ∧
    ArchExtractor.test_archive okBackend ex0 (some ["d", "x"]) opts0 w0 =
      .ok (false, ex0, { w0 with events := w0.events ++ [Event.logNotArchive ["d", "x"]] }) :=
  ⟨(claim_C5 okBackend ex0 none opts0 w0).1.mpr ⟨rfl, rfl⟩,
   (claim_C5 okBackend ex0 (some ["d", "x"]) opts0 w0).2 rfl⟩

/-- **C10**: no operation mutates the instance fields `src` and `dst` set by
the constructor: `test_archive`, `extract` and a full recursive `extractall`
each return the very same instance value they were invoked on, so after any
call the instance's `src` and `dst` equal their constructor-time values. -/
theorem claim_C10 (B : Backend) (ctx : Ctx) (self : ArchExtractor)
    (osrc odst : Option FPath) (opts : Opts) (cleanup : Bool) (fuel : Nat) (w : World) :
    (∃ b w', self.test_archive B osrc opts w = .ok (b, self, w')) ∧
    (∃ w', self.extract B ctx osrc odst opts cleanup w = .ok (self, w')) ∧
    (∃ w', ArchExtractor.extractall B ctx fuel self osrc odst opts cleanup w =
      .ok (self, w')) := by
  refine ⟨?_, extract_ok B ctx self osrc odst opts cleanup w,
    extractall_ok B ctx fuel self osrc odst opts cleanup w⟩
  obtain ⟨b, tail, hv, _⟩ := test_archive_shape B self osrc opts w
  exact ⟨b, _, hv⟩

/-- **C3**: for every call to `extract` in which validation returns false,
the call returns immediately with no side effects: the filesystem tree is
unchanged, the backend extraction is never invoked, no artifact-cleanup pass
runs, and the source file is not deleted even with `cleanup = true` — the only
events appended are the validation log/probe events (no extraction-call,
predicate-evaluation, removal, or cleanup-removal event occurs). -/
theorem claim_C3 (B : Backend) (ctx : Ctx) (self s1 : ArchExtractor)
    (osrc odst : Option FPath) (opts : Opts) (cleanup : Bool) (w w1 : World)
    (hv : self.test_archive B (some (osrc.getD self.src)) opts w = .ok (false, s1, w1)) :
    self.extract B ctx osrc odst opts cleanup w = .ok (s1, w1) ∧
    w1.root = w.root ∧
    ∃ tail, w1.events = w.events ++ tail ∧
      ∀ e ∈ tail, e = Event.logNotArchive (osrc.getD self.src) ∨
        e = Event.probeCall (osrc.getD self.src) ∨
        e = Event.logTestFailed (osrc.getD self.src) := by
  refine ⟨extract_eq_invalid B ctx self s1 osrc odst opts cleanup w w1 hv, ?_⟩
  obtain ⟨b, tail, hv', hall⟩ := test_archive_shape B self (some (osrc.getD self.src)) opts w
  rw [hv] at hv'
  simp only [Except.ok.injEq, Prod.mk.injEq] at hv'
  obtain ⟨_, _, hw1⟩ := hv'
  subst hw1
  exact ⟨rfl, tail, rfl, hall⟩

theorem claim_C3_witness :
    ArchExtractor.extract okBackend ctxPlain ex0 (some ["d", "x"]) none opts0 true w0 =
      .ok (ex0, { root := tree0, events := [Event.logNotArchive ["d", "x"]] }) :=
  (claim_C3 okBackend ctxPlain ex0 ex0 (some ["d", "x"]) none opts0 true w0
    { root := tree0, events := [Event.logNotArchive ["d", "x"]] } rfl).1

/-- **C2**: for every call to `extract` in which validation succeeded, the
cleanup-and-delete finalizer (the artifact-removal walk over the destination
subtree followed by the conditional source deletion) executes regardless of
the backend extraction outcome: the result is always `finalize` applied to the
post-attempt world `attemptWorld` — a single expression covering both the
success and the failure branch of the backend call. -/
theorem claim_C2 (B : Backend) (ctx : Ctx) (self s1 : ArchExtractor)
    (osrc odst : Option FPath) (opts : Opts) (cleanup : Bool) (w w1 : World)
    (hv : self.test_archive B (some (osrc.getD self.src)) opts w = .ok (true, s1, w1)) :
    self.extract B ctx osrc odst opts cleanup w =
      .ok (s1, finalize ctx (osrc.getD self.src) (odst.getD self.dst) cleanup
        (attemptWorld B (osrc.getD self.src) (odst.getD self.dst) opts w1)) :=
  extract_eq_valid B ctx self s1 osrc odst opts cleanup w w1 hv

theorem claim_C2_witness :
    ArchExtractor.extract failBackend ctxPlain ex0 none none opts0 true w0 =
      .ok (ex0, finalize ctxPlain ["d", "inner.zip"] ["d"] true
        (attemptWorld failBackend ["d", "inner.zip"] ["d"] opts0
          { root := tree0, events := [Event.probeCall ["d", "inner.zip"]] })) ∧
    (failBackend.extract_archive ["d", "inner.zip"] ["d"] opts0 tree0).2.isSome = true ∧
    existsAt (finalize ctxPlain ["d", "inner.zip"] ["d"] true
        (attemptWorld failBackend ["d", "inner.zip"] ["d"] opts0
          { root := tree0, events := [Event.probeCall ["d", "inner.zip"]] })).root
      ["d", "inner.zip"] = false :=
  ⟨claim_C2 failBackend ctxPlain ex0 ex0 none none opts0 true w0
    { root := tree0, events := [Event.probeCall ["d", "inner.zip"]] } rfl, rfl, rfl⟩

/-- **C6 (counterexample)**: with `cleanup = false`, `extract` can still delete
the source archive: when the source lies inside the destination subtree (as in
every nested `extractall` call) and the external artifact predicate classifies
it as auto-generated (e.g. a resource-fork companion carrying an archive
extension), the finalizer's artifact walk removes it.  Concretely, extracting
`d/inner.zip` into `d` with `cleanup = false` under `ctxArtZip` deletes
`d/inner.zip`. -/
theorem claim_C6_counterexample :
    existsAt w0.root ["d", "inner.zip"] = true ∧
    (ArchExtractor.extract okBackend ctxArtZip ex0 none none opts0 false w0).toOption.map
      (fun r => existsAt r.2.root ["d", "inner.zip"]) = some false :=
  ⟨rfl, rfl⟩

/-- **C6 (amended)**: the cleanup-conditional deletion of the source archive
happens only inside the finalizer, only when `cleanup = true`; with
`cleanup = false` the cleanup-deletion step never runs (no cleanup-removal
event is ever produced), although the artifact-removal walk may still delete a
source that lies under the destination and is classified auto-generated. -/
theorem claim_C6_amended (B : Backend) (ctx : Ctx) (self s' : ArchExtractor)
    (osrc odst : Option FPath) (opts : Opts) (cleanup : Bool) (w w' : World)
    (hok : self.extract B ctx osrc odst opts cleanup w = .ok (s', w'))
    (hcl : cleanup = false) (p : FPath) :
    Event.removedCleanup p ∈ w'.events ↔ Event.removedCleanup p ∈ w.events := by
  subst hcl
  obtain ⟨b, tail1, hv, hall1⟩ := test_archive_shape B self (some (osrc.getD self.src)) opts w
  have hnc1 : Event.removedCleanup p ∉ tail1 := by
    intro hmem
    rcases hall1 _ hmem with h | h | h <;> simp at h
  cases b with
  | false =>
      rw [extract_eq_invalid B ctx self self osrc odst opts false w _ hv] at hok
      simp only [Except.ok.injEq, Prod.mk.injEq] at hok
      rw [← hok.2]
      simp only [List.mem_append]
      exact ⟨fun h => h.resolve_right hnc1, Or.inl⟩
  | true =>
      rw [extract_eq_valid B ctx self self osrc odst opts false w _ hv] at hok
      simp only [Except.ok.injEq, Prod.mk.injEq] at hok
      obtain ⟨tail2, he2, hall2⟩ := attemptWorld_events B (osrc.getD self.src)
        (odst.getD self.dst) opts { w with events := w.events ++ tail1 }
      obtain ⟨tail3, he3, hall3⟩ := finalize_events ctx (osrc.getD self.src)
        (odst.getD self.dst) false
        (attemptWorld B (osrc.getD self.src) (odst.getD self.dst) opts
          { w with events := w.events ++ tail1 })
      rw [← hok.2, he3, he2]
      have hnc2 : Event.removedCleanup p ∉ tail2 := by
        intro hmem
        rcases hall2 _ hmem with h | h <;> simp at h
      have hnc3 : Event.removedCleanup p ∉ tail3 := by
        intro hmem
        rcases hall3 _ hmem with h | h
        · simp [isWalkEvent] at h
        · simp at h
      simp only [List.append_assoc, List.mem_append]
      constructor
      · rintro (h | h | h | h)
        · exact h
        · exact absurd h hnc1
        · exact absurd h hnc2
        · exact absurd h hnc3
      · exact fun h => Or.inl h

theorem claim_C6_amended_witness :
    Event.removedCleanup ["d", "inner.zip"] ∈
      [Event.probeCall ["d", "inner.zip"],
       Event.extractCall ["d", "inner.zip"] ["d"],
       Event.artCheck ["d", "A"],
       Event.artCheck ["d", "inner.zip"],
       Event.removedFile ["d", "inner.zip"],
       Event.artCheck ["d", "x"],
       Event.artCheck ["d", "A", "g"]] ↔
    Event.removedCleanup ["d", "inner.zip"] ∈ w0.events :=
  claim_C6_amended okBackend ctxArtZip ex0 ex0 none none opts0 false w0
    { root := .dir [("d", .dir [("x", .file), ("A", .dir [("g", .file)])])],
      events :=
        [Event.probeCall ["d", "inner.zip"],
         Event.extractCall ["d", "inner.zip"] ["d"],
         Event.artCheck ["d", "A"],
         Event.artCheck ["d", "inner.zip"],
         Event.removedFile ["d", "inner.zip"],
         Event.artCheck ["d", "x"],
         Event.artCheck ["d", "A", "g"]] }
    rfl rfl ["d", "inner.zip"]

/-- **C9**: if an `OSError` occurs during the finalizer's artifact-removal
walk (the walk aborts with a partial state), the rest of the walk and the
subsequent source-deletion step are silently skipped: `extract` still returns
`.ok`, the resulting world is exactly the partial walk state with no further
events (no log record of the abort, no raised error) and no cleanup-removal
event — so with `cleanup = true` the source archive can remain on disk. -/
theorem claim_C9 (B : Backend) (ctx : Ctx) (self s1 : ArchExtractor)
    (osrc odst : Option FPath) (opts : Opts) (cleanup : Bool) (w w1 : World) (ab : WSt)
    (hv : self.test_archive B (some (osrc.getD self.src)) opts w = .ok (true, s1, w1))
    (hw : walkRec ctx
        (height (attemptWorld B (osrc.getD self.src) (odst.getD self.dst) opts w1).root + 1)
        (odst.getD self.dst)
        ((attemptWorld B (osrc.getD self.src) (odst.getD self.dst) opts w1).root, []) =
        .error ab) :
    self.extract B ctx osrc odst opts cleanup w =
      .ok (s1,
        { root := ab.1,
          events :=
            (attemptWorld B (osrc.getD self.src) (odst.getD self.dst) opts w1).events
              ++ ab.2 }) ∧
    ∀ p, Event.removedCleanup p ∉ ab.2 := by
  constructor
  · rw [extract_eq_valid B ctx self s1 osrc odst opts cleanup w w1 hv]
    have hfin : finalize ctx (osrc.getD self.src) (odst.getD self.dst) cleanup
        (attemptWorld B (osrc.getD self.src) (odst.getD self.dst) opts w1) =
        { root := ab.1,
          events := (attemptWorld B (osrc.getD self.src) (odst.getD self.dst) opts w1).events
            ++ ab.2 } := by
      simp [finalize, hw]
    rw [hfin]
  · intro p hmem
    obtain ⟨tail, he, hall⟩ := walkRec_events ctx
      (height (attemptWorld B (osrc.getD self.src) (odst.getD self.dst) opts w1).root + 1)
      (odst.getD self.dst)
      (attemptWorld B (osrc.getD self.src) (odst.getD self.dst) opts w1).root []
    rw [hw] at he
    simp only [wstOf, List.nil_append] at he
    rw [he] at hmem
    have := hall _ hmem
    simp [isWalkEvent] at this

theorem claim_C9_witness :
    ArchExtractor.extract okBackend ctxLockedA ex0 none none opts0 true w0 =
      .ok (ex0,
        { root := tree0,
          events := [Event.probeCall ["d", "inner.zip"],
            Event.extractCall ["d", "inner.zip"] ["d"],
            Event.artCheck ["d", "A"]] }) ∧
    Event.removedCleanup ["d", "inner.zip"] ∉ [Event.artCheck ["d", "A"]] ∧
    existsAt tree0 ["d", "inner.zip"] = true :=
  ⟨(claim_C9 okBackend ctxLockedA ex0 ex0 none none opts0 true w0
      { root := tree0, events := [Event.probeCall ["d", "inner.zip"]] }
      (tree0, [Event.artCheck ["d", "A"]]) rfl rfl).1,
   (claim_C9 okBackend ctxLockedA ex0 ex0 none none opts0 true w0
      { root := tree0, events := [Event.probeCall ["d", "inner.zip"]] }
      (tree0, [Event.artCheck ["d", "A"]]) rfl rfl).2 ["d", "inner.zip"],
   rfl⟩

/-- **C7 (counterexample)**: the walk does not evaluate the artifact predicate
on every entry of the full destination subtree: entries inside a directory
that was itself removed as an artifact are never listed, so their predicate is
never evaluated.  Concretely, with `d/A` classified auto-generated, the walk
over `d` removes `A` wholesale and never evaluates the predicate on the
existing entry `d/A/g`. -/
theorem claim_C7_counterexample :
    (lookupAt w0.root ["d", "A", "g"]).isSome = true ∧
    Event.artCheck ["d", "A", "g"] ∉
      (finalize ctxArtA ["d", "inner.zip"] ["d"] false w0).events :=
  ⟨rfl, by decide⟩

/-- **C7 (amended)**: the artifact-removal walk evaluates the predicate on
every directory and file of the destination subtree except entries lying
inside an already-removed artifact directory (those are deleted wholesale with
their parent and never listed); the existence re-check guarding each deletion
means a vanished entry never aborts the walk: when no path is locked the walk
always completes without raising. -/
theorem claim_C7_amended :
    (∀ (ctx : Ctx) (fuel : Nat) (top : FPath) (st : WSt),
      (∀ p, ctx.locked p = false) → ∃ st', walkRec ctx fuel top st = .ok st') ∧
    (∀ (ctx : Ctx) (src dst : FPath) (cleanup : Bool) (w : World) (q : FPath),
      (∀ p, ctx.locked p = false) → q ≠ [] →
      (lookupAt w.root (dst ++ q)).isSome = true →
      (∀ r, r ≠ [] → r.length < q.length → pathLe r q = true →
        ctx.is_auto_generated (dst ++ r) = false) →
      Event.artCheck (dst ++ q) ∈ (finalize ctx src dst cleanup w).events) := by
  constructor
  · intro ctx fuel top st hnl
    exact walkRec_ok_of_noLock ctx hnl fuel top st
  · intro ctx src dst cleanup w q hnl hq hsome hart
    have hfuel : q.length ≤ height w.root + 1 := by
      have := length_le_height_of_lookupAt (dst ++ q) w.root hsome
      simp only [List.length_append] at this
      omega
    have hcov := walkRec_covers ctx hnl q (height w.root + 1) dst w.root [] hq hfuel
      hsome hart
    obtain ⟨st, hwk⟩ := walkRec_ok_of_noLock ctx hnl (height w.root + 1) dst (w.root, [])
    rw [hwk] at hcov
    simp only [wstOf] at hcov
    simp only [finalize, hwk]
    by_cases h1 : cleanup && existsAt st.1 src
    · simp only [h1, if_pos]
      by_cases h2 : ctx.locked src || isDirAt st.1 src
      · simp only [h2, if_pos]
        exact List.mem_append.mpr (Or.inr hcov)
      · simp only [h2, Bool.false_eq_true, if_false]
        exact List.mem_append.mpr (Or.inl (List.mem_append.mpr (Or.inr hcov)))
    · simp only [h1, Bool.false_eq_true, if_false]
      exact List.mem_append.mpr (Or.inr hcov)

theorem claim_C7_amended_witness :
    (∃ st', walkRec ctxPlain 4 ["d"] (tree0, []) = .ok st') ∧
    Event.artCheck (["d"] ++ ["A", "g"]) ∈
      (finalize ctxPlain ["d", "inner.zip"] ["d"] false w0).events :=
  ⟨claim_C7_amended.1 ctxPlain 4 ["d"] (tree0, []) (fun _ => rfl),
   claim_C7_amended.2 ctxPlain ["d", "inner.zip"] ["d"] false w0 ["A", "g"]
     (fun _ => rfl) (by decide) rfl (fun _ _ _ _ => rfl)⟩

theorem runSubs_eq_runSubsF
    (step : FPath → ArchExtractor × World → Except Exc (ArchExtractor × World))
    (isArch : FPath → Bool) (ed : FPath) :
    ∀ (ns : List String) (st : ArchExtractor × World),
      runSubs step isArch ed ns st =
        runSubsF step ed (ns.filter (fun n => isArch (ed ++ [n]))) st := by
  intro ns
  induction ns with
  | nil => intro st; rfl
  | cons n ns ih =>
      intro st
      cases ha : isArch (ed ++ [n]) with
      | false =>
          simp only [runSubs, ha, Bool.false_eq_true, if_false, List.filter_cons]
          rw [ih]
      | true =>
          simp only [runSubs, ha, if_pos, List.filter_cons]
          cases hstep : step (ed ++ [n]) st with
          | error e => simp [runSubsF, hstep]
          | ok st' =>
              have : runSubsF step ed
                  (n :: ns.filter (fun n => isArch (ed ++ [n]))) st =
                  runSubsF step ed (ns.filter (fun n => isArch (ed ++ [n]))) st' := by
                simp [runSubsF, hstep]
              simp only [ha, if_pos]
              rw [this]
              exact ih st'

/-- **C4**: one step of `extractall` (at positive fuel, mirroring the
unbounded Python recursion) first performs the single-level extraction of the
source; then the expected output directory is computed as `dst` joined with
`basename src` stripped of its extension; if that path does not exist or is
not a directory, the call returns right there without error and without any
nested descent; otherwise exactly the direct children of that directory that
the backend's coarse `is_archive` classifies as archives are recursed on via
`extractall`, in listing order, with `source_path` = the child,
`destination_dir` = the expected output directory, and identical option and
cleanup values; non-archive children are not touched. -/
theorem claim_C4 (B : Backend) (ctx : Ctx) (fuel : Nat) (self : ArchExtractor)
    (osrc odst : Option FPath) (opts : Opts) (cleanup : Bool) (w : World) :
    ArchExtractor.extractall B ctx (fuel + 1) self osrc odst opts cleanup w =
      match self.extract B ctx (some (osrc.getD self.src)) (some (odst.getD self.dst))
          opts cleanup w with
      | .error e => .error e
      | .ok (s1, w1) =>
          match lookupAt w1.root
              ((odst.getD self.dst) ++ [splitextRoot (basename (osrc.getD self.src))]) with
          | some (.dir cs) =>
              runSubsF
                (fun p st => ArchExtractor.extractall B ctx fuel st.1 (some p)
                  (some ((odst.getD self.dst) ++
                    [splitextRoot (basename (osrc.getD self.src))])) opts cleanup st.2)
                ((odst.getD self.dst) ++ [splitextRoot (basename (osrc.getD self.src))])
                ((cs.map fun c => c.1).filter
                  (fun n => B.is_archive (((odst.getD self.dst) ++
                    [splitextRoot (basename (osrc.getD self.src))]) ++ [n])))
                (s1, w1)
          | _ => .ok (s1, w1) := by
  cases he : self.extract B ctx (some (osrc.getD self.src)) (some (odst.getD self.dst))
      opts cleanup w with
  | error e => simp [ArchExtractor.extractall, he]
  | ok r =>
      obtain ⟨s1, w1⟩ := r
      cases hl : lookupAt w1.root
          ((odst.getD self.dst) ++ [splitextRoot (basename (osrc.getD self.src))]) with
      | none => simp [ArchExtractor.extractall, he, hl]
      | some u =>
          cases u with
          | file => simp [ArchExtractor.extractall, he, hl]
          | dir cs =>
              have hred : ArchExtractor.extractall B ctx (fuel + 1) self osrc odst opts
                  cleanup w =
                  runSubs
                    (fun p st => ArchExtractor.extractall B ctx fuel st.1 (some p)
                      (some ((odst.getD self.dst) ++
                        [splitextRoot (basename (osrc.getD self.src))])) opts cleanup st.2)
                    B.is_archive
                    ((odst.getD self.dst) ++ [splitextRoot (basename (osrc.getD self.src))])
                    (cs.map fun c => c.1) (s1, w1) := by
                simp [ArchExtractor.extractall, he, hl]
              rw [hred]
              simp only [he, hl]
              exact runSubs_eq_runSubsF _ B.is_archive _ (cs.map fun c => c.1) (s1, w1)

theorem attemptWorld_root (B : Backend) (src dst : FPath) (opts : Opts) (w : World) :
    (attemptWorld B src dst opts w).root = (B.extract_archive src dst opts w.root).1 := by
  unfold attemptWorld
  cases hb : B.extract_archive src dst opts w.root with
  | mk t r => cases r <;> simp

theorem finalize_height (ctx : Ctx) (src dst : FPath) (cleanup : Bool) (w : World) :
    height (finalize ctx src dst cleanup w).root ≤ height w.root := by
  unfold finalize
  have hwalk := walkRec_height ctx (height w.root + 1) dst w.root []
  cases hwk : walkRec ctx (height w.root + 1) dst (w.root, []) with
  | error st =>
      rw [hwk] at hwalk
      simp only [wstOf] at hwalk
      exact hwalk
  | ok st =>
      rw [hwk] at hwalk
      simp only [wstOf] at hwalk
      by_cases h1 : cleanup && existsAt st.1 src
      · simp only [h1, if_pos]
        by_cases h2 : ctx.locked src || isDirAt st.1 src
        · simp only [h2, if_pos]; exact hwalk
        · simp only [h2, Bool.false_eq_true, if_false]
          exact le_trans (height_removeAt_le src st.1) hwalk
      · simp only [h1, Bool.false_eq_true, if_false]; exact hwalk

theorem extract_height (B : Backend) (ctx : Ctx) (N : Nat)
    (hB : ∀ src dst o t, height (B.extract_archive src dst o t).1 ≤ N)
    (self s' : ArchExtractor) (osrc odst : Option FPath) (opts : Opts) (cleanup : Bool)
    (w w' : World) (hw : height w.root ≤ N)
    (hok : self.extract B ctx osrc odst opts cleanup w = .ok (s', w')) :
    height w'.root ≤ N := by
  obtain ⟨b, tail, hv, _⟩ := test_archive_shape B self (some (osrc.getD self.src)) opts w
  cases b with
  | false =>
      rw [extract_eq_invalid B ctx self self osrc odst opts cleanup w _ hv] at hok
      simp only [Except.ok.injEq, Prod.mk.injEq] at hok
      rw [← hok.2]
      exact hw
  | true =>
      rw [extract_eq_valid B ctx self self osrc odst opts cleanup w _ hv] at hok
      simp only [Except.ok.injEq, Prod.mk.injEq] at hok
      rw [← hok.2]
      refine le_trans (finalize_height _ _ _ _ _) ?_
      rw [attemptWorld_root]
      exact hB _ _ _ _

theorem runSubs_height (step : FPath → ArchExtractor × World → Except Exc (ArchExtractor × World))
    (isArch : FPath → Bool) (ed : FPath) (N : Nat)
    (hstep_ok : ∀ p s w, ∃ w', step p (s, w) = .ok (s, w'))
    (hstep_h : ∀ p s w w', height w.root ≤ N → step p (s, w) = .ok (s, w') →
      height w'.root ≤ N) :
    ∀ (ns : List String) (s : ArchExtractor) (w w' : World) (s' : ArchExtractor),
      height w.root ≤ N → runSubs step isArch ed ns (s, w) = .ok (s', w') →
      height w'.root ≤ N := by
  intro ns
  induction ns with
  | nil =>
      intro s w w' s' hw hok
      simp only [runSubs, Except.ok.injEq, Prod.mk.injEq] at hok
      rw [← hok.2]
      exact hw
  | cons n ns ih =>
      intro s w w' s' hw hok
      cases ha : isArch (ed ++ [n]) with
      | false =>
          rw [show runSubs step isArch ed (n :: ns) (s, w) =
                runSubs step isArch ed ns (s, w) by simp [runSubs, ha]] at hok
          exact ih s w w' s' hw hok
      | true =>
          obtain ⟨w1, hs⟩ := hstep_ok (ed ++ [n]) s w
          rw [show runSubs step isArch ed (n :: ns) (s, w) =
                runSubs step isArch ed ns (s, w1) by simp [runSubs, ha, hs]] at hok
          exact ih s w1 w' s' (hstep_h (ed ++ [n]) s w w1 hw hs) hok

theorem extractall_height (B : Backend) (ctx : Ctx) (N : Nat)
    (hB : ∀ src dst o t, height (B.extract_archive src dst o t).1 ≤ N) :
    ∀ (fuel : Nat) (self s' : ArchExtractor) (osrc odst : Option FPath) (opts : Opts)
      (cleanup : Bool) (w w' : World),
      height w.root ≤ N →
      ArchExtractor.extractall B ctx fuel self osrc odst opts cleanup w = .ok (s', w') →
      height w'.root ≤ N := by
  intro fuel
  induction fuel with
  | zero =>
      intro self s' osrc odst opts cleanup w w' hw hok
      simp only [ArchExtractor.extractall, Except.ok.injEq, Prod.mk.injEq] at hok
      rw [← hok.2]
      exact hw
  | succ fuel ih =>
      intro self s' osrc odst opts cleanup w w' hw hok
      obtain ⟨w1, he⟩ := extract_ok B ctx self (some (osrc.getD self.src))
        (some (odst.getD self.dst)) opts cleanup w
      have hw1 : height w1.root ≤ N :=
        extract_height B ctx N hB self self (some (osrc.getD self.src))
          (some (odst.getD self.dst)) opts cleanup w w1 hw he
      cases hl : lookupAt w1.root
          ((odst.getD self.dst) ++ [splitextRoot (basename (osrc.getD self.src))]) with
      | none =>
          rw [show ArchExtractor.extractall B ctx (fuel + 1) self osrc odst opts cleanup w =
                .ok (self, w1) by simp [ArchExtractor.extractall, he, hl]] at hok
          simp only [Except.ok.injEq, Prod.mk.injEq] at hok
          rw [← hok.2]
          exact hw1
      | some u =>
          cases u with
          | file =>
              rw [show ArchExtractor.extractall B ctx (fuel + 1) self osrc odst opts cleanup w =
                    .ok (self, w1) by simp [ArchExtractor.extractall, he, hl]] at hok
              simp only [Except.ok.injEq, Prod.mk.injEq] at hok
              rw [← hok.2]
              exact hw1
          | dir cs =>
              rw [show ArchExtractor.extractall B ctx (fuel + 1) self osrc odst opts cleanup w =
                    runSubs
                      (fun p st => ArchExtractor.extractall B ctx fuel st.1 (some p)
                        (some ((odst.getD self.dst) ++
                          [splitextRoot (basename (osrc.getD self.src))])) opts cleanup st.2)
                      B.is_archive
                      ((odst.getD self.dst) ++ [splitextRoot (basename (osrc.getD self.src))])
                      (cs.map fun c => c.1) (self, w1)
                    by simp [ArchExtractor.extractall, he, hl]] at hok
              exact runSubs_height _ B.is_archive _ N
                (fun p s w'' => extractall_ok B ctx fuel s (some p) _ opts cleanup w'')
                (fun p s w'' w3 hw'' hok'' => ih s s (some p) _ opts cleanup w'' w3 hw'' hok'')
                (cs.map fun c => c.1) self w1 w' s' hw1 hok

theorem runSubs_congr
    (step1 step2 : FPath → ArchExtractor × World → Except Exc (ArchExtractor × World))
    (isArch : FPath → Bool) (ed : FPath) (N : Nat)
    (hstep_eq : ∀ p s w, height w.root ≤ N → step1 p (s, w) = step2 p (s, w))
    (hstep_ok : ∀ p s w, ∃ w', step1 p (s, w) = .ok (s, w'))
    (hstep_h : ∀ p s w w', height w.root ≤ N → step1 p (s, w) = .ok (s, w') →
      height w'.root ≤ N) :
    ∀ (ns : List String) (s : ArchExtractor) (w : World), height w.root ≤ N →
      runSubs step1 isArch ed ns (s, w) = runSubs step2 isArch ed ns (s, w) := by
  intro ns
  induction ns with
  | nil => intro s w _; rfl
  | cons n ns ih =>
      intro s w hw
      cases ha : isArch (ed ++ [n]) with
      | false =>
          rw [show runSubs step1 isArch ed (n :: ns) (s, w) =
                runSubs step1 isArch ed ns (s, w) by simp [runSubs, ha]]
          rw [show runSubs step2 isArch ed (n :: ns) (s, w) =
                runSubs step2 isArch ed ns (s, w) by simp [runSubs, ha]]
          exact ih s w hw
      | true =>
          obtain ⟨w1, hs1⟩ := hstep_ok (ed ++ [n]) s w
          have hs2 : step2 (ed ++ [n]) (s, w) = .ok (s, w1) := by
            rw [← hstep_eq (ed ++ [n]) s w hw]
            exact hs1
          rw [show runSubs step1 isArch ed (n :: ns) (s, w) =
                runSubs step1 isArch ed ns (s, w1) by simp [runSubs, ha, hs1]]
          rw [show runSubs step2 isArch ed (n :: ns) (s, w) =
                runSubs step2 isArch ed ns (s, w1) by simp [runSubs, ha, hs2]]
          exact ih s w1 (hstep_h (ed ++ [n]) s w w1 hw hs1)

theorem extractall_fuel_succ (B : Backend) (ctx : Ctx) (N : Nat)
    (hB : ∀ src dst o t, height (B.extract_archive src dst o t).1 ≤ N) :
    ∀ (fuel : Nat) (self : ArchExtractor) (osrc odst : Option FPath) (opts : Opts)
      (cleanup : Bool) (w : World),
      height w.root ≤ N → N + 1 ≤ fuel + (odst.getD self.dst).length → 1 ≤ fuel →
      ArchExtractor.extractall B ctx fuel self osrc odst opts cleanup w =
        ArchExtractor.extractall B ctx (fuel + 1) self osrc odst opts cleanup w := by
  intro fuel
  induction fuel with
  | zero => intro self osrc odst opts cleanup w _ _ h; omega
  | succ f ihf =>
      intro self osrc odst opts cleanup w hw hfuel _
      obtain ⟨w1, he⟩ := extract_ok B ctx self (some (osrc.getD self.src))
        (some (odst.getD self.dst)) opts cleanup w
      have hw1 : height w1.root ≤ N :=
        extract_height B ctx N hB self self (some (osrc.getD self.src))
          (some (odst.getD self.dst)) opts cleanup w w1 hw he
      cases hl : lookupAt w1.root
          ((odst.getD self.dst) ++ [splitextRoot (basename (osrc.getD self.src))]) with
      | none =>
          rw [show ArchExtractor.extractall B ctx (f + 1) self osrc odst opts cleanup w =
                .ok (self, w1) by simp [ArchExtractor.extractall, he, hl]]
          rw [show ArchExtractor.extractall B ctx (f + 1 + 1) self osrc odst opts cleanup w =
                .ok (self, w1) by simp [ArchExtractor.extractall, he, hl]]
      | some u =>
          cases u with
          | file =>
              rw [show ArchExtractor.extractall B ctx (f + 1) self osrc odst opts cleanup w =
                    .ok (self, w1) by simp [ArchExtractor.extractall, he, hl]]
              rw [show ArchExtractor.extractall B ctx (f + 1 + 1) self osrc odst opts
                    cleanup w = .ok (self, w1) by simp [ArchExtractor.extractall, he, hl]]
          | dir cs =>
              have hlen : ((odst.getD self.dst) ++
                  [splitextRoot (basename (osrc.getD self.src))]).length ≤ N := by
                refine le_trans (length_le_height_of_lookupAt _ w1.root ?_) hw1
                rw [hl]
                rfl
              simp only [List.length_append, List.length_cons, List.length_nil] at hlen
              have hf1 : 1 ≤ f := by omega
              rw [show ArchExtractor.extractall B ctx (f + 1) self osrc odst opts cleanup w =
                    runSubs
                      (fun p st => ArchExtractor.extractall B ctx f st.1 (some p)
                        (some ((odst.getD self.dst) ++
                          [splitextRoot (basename (osrc.getD self.src))])) opts cleanup st.2)
                      B.is_archive
                      ((odst.getD self.dst) ++ [splitextRoot (basename (osrc.getD self.src))])
                      (cs.map fun c => c.1) (self, w1)
                    by simp [ArchExtractor.extractall, he, hl]]
              rw [show ArchExtractor.extractall B ctx (f + 1 + 1) self osrc odst opts
                    cleanup w =
                    runSubs
                      (fun p st => ArchExtractor.extractall B ctx (f + 1) st.1 (some p)
                        (some ((odst.getD self.dst) ++
                          [splitextRoot (basename (osrc.getD self.src))])) opts cleanup st.2)
                      B.is_archive
                      ((odst.getD self.dst) ++ [splitextRoot (basename (osrc.getD self.src))])
                      (cs.map fun c => c.1) (self, w1)
                    by simp [ArchExtractor.extractall, he, hl]]
              refine runSubs_congr _ _ B.is_archive _ N ?_ ?_ ?_ (cs.map fun c => c.1)
                self w1 hw1
              · intro p s w'' hw''
                refine ihf s (some p)
                  (some ((odst.getD self.dst) ++
                    [splitextRoot (basename (osrc.getD self.src))])) opts cleanup w'' hw''
                  ?_ hf1
                simp only [Option.getD_some, List.length_append, List.length_cons,
                  List.length_nil]
                omega
              · intro p s w''
                exact extractall_ok B ctx f s (some p) _ opts cleanup w''
              · intro p s w'' w3 hw'' hok''
                exact extractall_height B ctx N hB f s s (some p) _ opts cleanup w'' w3
                  hw'' hok''

theorem extractall_fuel_add (B : Backend) (ctx : Ctx) (N : Nat)
    (hB : ∀ src dst o t, height (B.extract_archive src dst o t).1 ≤ N) :
    ∀ (d fuel : Nat) (self : ArchExtractor) (osrc odst : Option FPath) (opts : Opts)
      (cleanup : Bool) (w : World),
      height w.root ≤ N → N + 1 ≤ fuel + (odst.getD self.dst).length → 1 ≤ fuel →
      ArchExtractor.extractall B ctx fuel self osrc odst opts cleanup w =
        ArchExtractor.extractall B ctx (fuel + d) self osrc odst opts cleanup w := by
  intro d
  induction d with
  | zero => intro fuel self osrc odst opts cleanup w _ _ _; rfl
  | succ d ihd =>
      intro fuel self osrc odst opts cleanup w hw h1 h2
      rw [ihd fuel self osrc odst opts cleanup w hw h1 h2]
      rw [show fuel + (d + 1) = (fuel + d) + 1 by omega]
      exact extractall_fuel_succ B ctx N hB (fuel + d) self osrc odst opts cleanup w hw
        (by omega) (by omega)

/-- **C8**: every call to `extractall` terminates, under the formalized
backend guarantee that nesting is bounded: if every tree the backend
extraction can produce has height at most `N` (no unbounded re-embedding of
archives inside extraction output) and the initial tree does too, then the
fuel-indexed embedding of the unbounded Python recursion is insensitive to the
fuel once it covers the bound — any two sufficient fuels give the same
result, i.e. the recursion reaches a fixed point instead of descending
forever. -/
theorem claim_C8 (B : Backend) (ctx : Ctx) (self : ArchExtractor)
    (osrc odst : Option FPath) (opts : Opts) (cleanup : Bool) (w : World)
    (N fuel₁ fuel₂ : Nat)
    (hroot : height w.root ≤ N)
    (hB : ∀ src dst o t, height (B.extract_archive src dst o t).1 ≤ N)
    (h1 : N + 1 ≤ fuel₁ + (odst.getD self.dst).length) (h1' : 1 ≤ fuel₁)
    (h2 : N + 1 ≤ fuel₂ + (odst.getD self.dst).length) (h2' : 1 ≤ fuel₂) :
    ArchExtractor.extractall B ctx fuel₁ self osrc odst opts cleanup w =
      ArchExtractor.extractall B ctx fuel₂ self osrc odst opts cleanup w := by
  rcases Nat.le_total fuel₁ fuel₂ with h | h
  · have heq := extractall_fuel_add B ctx N hB (fuel₂ - fuel₁) fuel₁ self osrc odst opts
      cleanup w hroot h1 h1'
    rw [show fuel₁ + (fuel₂ - fuel₁) = fuel₂ by omega] at heq
    exact heq
  · have heq := extractall_fuel_add B ctx N hB (fuel₁ - fuel₂) fuel₂ self osrc odst opts
      cleanup w hroot h2 h2'
    rw [show fuel₂ + (fuel₁ - fuel₂) = fuel₁ by omega] at heq
    exact heq.symm

theorem claim_C8_witness :
    ArchExtractor.extractall boundedBackend ctxPlain 3 ex0 none none opts0 false w0 =
      ArchExtractor.extractall boundedBackend ctxPlain 7 ex0 none none opts0 false w0 :=
  claim_C8 boundedBackend ctxPlain ex0 none none opts0 false w0 3 3 7
    (by decide) (fun _ _ _ _ => by simp [boundedBackend, height, heightC])
    (by decide) (by decide) (by decide) (by decide)
